import Mathlib

/-!
# Verification of the brain-cli notes synchronization engine

This file gives a shallow embedding, in Lean 4, of the bidirectional
notes synchronization core of the `brain-cli` repository
(`src/bin/brain.js`), and proves or refutes the frozen claims about it.

Modelling conventions:

* Strings manipulated by the engine (ids, titles, fingerprints, markers)
  are Lean `String`s; the metadata-header round-trip layer, where exact
  character positions matter, is modelled on `List Char`.
* `noteContentHash` (a truncated md5 digest) is modelled as an explicit
  function parameter `hash : String → String`: every claim about the
  engine uses fingerprints only as an equality oracle, so the engine
  definitions are parameterised by the digest function.
* `markdownToBlocks` comes from the external `@tryfabric/martian`
  library (an external collaborator per the spec); it is likewise a
  parameter `m2b : String → List NBlock`.
* Side effects (remote API calls, local file writes) are reified as a
  trace of `Eff` values produced by the engine functions; the JS
  functions `fetchAllPageBlocks`, `deleteAllBlocks` and `appendBlocks`
  become trace generators with the same call structure.
* JavaScript object maps (the sync-state ledger, parsed frontmatter) are
  modelled as association lists in insertion order, with JS assignment
  semantics (update in place if the key exists, else append).
* JS truthiness on string-valued fields (`!frontmatter.id`, `t.href`,
  `frontmatter.title || file`) is modelled explicitly: `none` and the
  empty string are falsy.
-/

namespace BrainCli

/-! ## Slugs (`slugify`, brain.js lines 949–955) -/

/-- Characters kept by `slugify`'s character class `[a-z0-9]`. -/
def isSlugKeep (c : Char) : Bool :=
  ('a' ≤ c && c ≤ 'z') || ('0' ≤ c && c ≤ '9')

/-- `.replace(/[^a-z0-9]+/g, '-')`, scanned left to right: a kept
character is copied; a character outside `[a-z0-9]` emits one `'-'`
unless the scanner is already inside such a run (`inBad`). -/
def collapseAux : Bool → List Char → List Char
  | _, [] => []
  | inBad, c :: rest =>
    if isSlugKeep c then c :: collapseAux false rest
    else if inBad then collapseAux true rest
    else '-' :: collapseAux true rest

/-- `.replace(/[^a-z0-9]+/g, '-')`: each maximal run of characters outside
`[a-z0-9]` collapses to a single `'-'`. -/
def collapseBad (cs : List Char) : List Char :=
  collapseAux false cs

/-- `^-` of `.replace(/^-|-$/g, '')`: remove one leading dash. -/
def dropLeadDash (cs : List Char) : List Char :=
  match cs with
  | '-' :: rest => rest
  | other => other

/-- `-$` of `.replace(/^-|-$/g, '')`: remove one trailing dash. -/
def dropTrailDash (cs : List Char) : List Char :=
  if cs.getLast? = some '-' then cs.dropLast else cs

/-- `.replace(/^-|-$/g, '')`: remove one leading and one trailing dash. -/
def stripDashes (cs : List Char) : List Char :=
  dropTrailDash (dropLeadDash cs)

/-- `slugify(title)` from brain.js: lower-case, collapse non-alphanumeric
runs to dashes, strip one boundary dash at each end, truncate to 60. -/
def slugify (title : String) : String :=
  ((stripDashes (collapseBad (title.data.map Char.toLower))).take 60).asString

/-! ## Inline rich text (`richTextToMd`, brain.js lines 980–991) -/

/-- One inline rich-text span. The JS object's `annotations` sub-object is
flattened into boolean fields; `href` is `none` when absent. -/
structure RichTextSpan where
  plainText : String
  bold : Bool
  italic : Bool
  code : Bool
  strikethrough : Bool
  href : Option String
deriving DecidableEq, Repr

/-- JS truthiness of an optional string: absent and `""` are falsy. -/
def truthyS : Option String → Bool
  | none => false
  | some s => !(s == "")

/-- The per-span body of `richTextToMd`: sequential reassignments
`if (t.annotations?.bold) text = `**${text}**`;` and so on, ending with
the `t.href` link wrap. -/
def spanToMd (t : RichTextSpan) : String :=
  let text := t.plainText
  let text := if t.bold then "**" ++ text ++ "**" else text
  let text := if t.italic then "*" ++ text ++ "*" else text
  let text := if t.code then "`" ++ text ++ "`" else text
  let text := if t.strikethrough then "~~" ++ text ++ "~~" else text
  let text := if truthyS t.href then "[" ++ text ++ "](" ++ t.href.getD "" ++ ")" else text
  text

/-- `richTextToMd(richText)`: map `spanToMd` over the spans and join. -/
def richTextToMd (rt : List RichTextSpan) : String :=
  String.join (rt.map spanToMd)

/-! Specification-side wrappers, one per annotation, written from the
spec's words ("bold, then italic, then inline-code, then strikethrough,
then link"); the C8 theorem compares `spanToMd` with their nesting. -/

/-- Spec-side bold wrap. -/
def specWrapBold (b : Bool) (s : String) : String :=
  if b then "**" ++ s ++ "**" else s

/-- Spec-side italic wrap. -/
def specWrapItalic (b : Bool) (s : String) : String :=
  if b then "*" ++ s ++ "*" else s

/-- Spec-side inline-code wrap. -/
def specWrapCode (b : Bool) (s : String) : String :=
  if b then "`" ++ s ++ "`" else s

/-- Spec-side strikethrough wrap. -/
def specWrapStrike (b : Bool) (s : String) : String :=
  if b then "~~" ++ s ++ "~~" else s

/-- Spec-side link wrap (a truthy `href` wraps the text last). -/
def specWrapLink (href : Option String) (s : String) : String :=
  if truthyS href then "[" ++ s ++ "](" ++ href.getD "" ++ ")" else s

/-! ## Blocks and the block→markdown transcoder
(`blocksToMarkdown`, brain.js lines 993–1046) -/

/-- Typed remote content block (the variants `blocksToMarkdown` handles;
`other` stands for any unmodelled block type, skipped silently). -/
inductive NBlock where
  | paragraph (rt : List RichTextSpan)
  | heading1 (rt : List RichTextSpan)
  | heading2 (rt : List RichTextSpan)
  | heading3 (rt : List RichTextSpan)
  | bulleted (rt : List RichTextSpan)
  | numbered (rt : List RichTextSpan)
  | todo (checked : Bool) (rt : List RichTextSpan)
  | toggle (rt : List RichTextSpan)
  | code (language : Option String) (rt : List RichTextSpan)
  | quote (rt : List RichTextSpan)
  | divider
  | callout (icon : Option String) (rt : List RichTextSpan)
  | other
deriving DecidableEq, Repr

/-- The `switch (type)` body of `blocksToMarkdown` for one block. -/
def blockToMd : NBlock → String
  | .paragraph rt => richTextToMd rt ++ "\n\n"
  | .heading1 rt => "# " ++ richTextToMd rt ++ "\n\n"
  | .heading2 rt => "## " ++ richTextToMd rt ++ "\n\n"
  | .heading3 rt => "### " ++ richTextToMd rt ++ "\n\n"
  | .bulleted rt => "- " ++ richTextToMd rt ++ "\n"
  | .numbered rt => "1. " ++ richTextToMd rt ++ "\n"
  | .todo checked rt =>
      "- [" ++ (if checked then "x" else " ") ++ "] " ++ richTextToMd rt ++ "\n"
  | .toggle rt =>
      "<details>\n<summary>" ++ richTextToMd rt ++ "</summary>\n\n</details>\n\n"
  | .code language rt =>
      "```" ++ language.getD "" ++ "\n" ++ richTextToMd rt ++ "\n```\n\n"
  | .quote rt => "> " ++ richTextToMd rt ++ "\n\n"
  | .divider => "---\n\n"
  | .callout icon rt => "> " ++ icon.getD "" ++ " " ++ richTextToMd rt ++ "\n\n"
  | .other => ""

/-- `blocksToMarkdown(blocks)`: accumulate `blockToMd` and `.trim()`. -/
def blocksToMarkdown (bs : List NBlock) : String :=
  (String.join (bs.map blockToMd)).trim

/-! ## 100-block chunking (`appendBlocks`, brain.js lines 1103–1115) -/

/-- The `for (let i = 0; i < blocks.length; i += CHUNK_SIZE)` loop of
`appendBlocks` viewed as a partition of the input into consecutive
chunks of at most `CHUNK_SIZE = 100` elements. -/
def chunks100 {α : Type} : List α → List (List α)
  | [] => []
  | x :: xs => ((x :: xs).take 100) :: chunks100 ((x :: xs).drop 100)
termination_by l => l.length
decreasing_by simp only [List.length_drop, List.length_cons]; omega

/-! ## Ledger and frontmatter maps

JavaScript objects (`state.notes`, parsed frontmatter) are modelled as
association lists in insertion order. Assignment `obj[k] = v` keeps an
existing key's position and updates its value, otherwise appends. -/

/-- One ledger entry of `.notes-sync-state.json` (`state.notes[id]`). -/
structure LEntry where
  slug : String
  title : String
  notionUpdated : String
  localHash : String
  notionHash : String
deriving DecidableEq, Repr

/-- The `state.notes` map: remoteId → entry (the `lastSync` scalar is
immaterial to every claim and omitted; its file write is an effect). -/
abbrev Ledger := List (String × LEntry)

/-- First-match association lookup (`state.notes[id]`). -/
def lookupEntry (st : Ledger) (k : String) : Option LEntry :=
  match st with
  | [] => none
  | (k', e) :: rest => if k' = k then some e else lookupEntry rest k

/-- JS object assignment `state.notes[k] = e`. -/
def setEntry (st : Ledger) (k : String) (e : LEntry) : Ledger :=
  match st with
  | [] => [(k, e)]
  | (k', e') :: rest =>
    if k' = k then (k', e) :: rest else (k', e') :: setEntry rest k e

/-- Parsed frontmatter: key → value in insertion order. -/
abbrev FM := List (String × String)

/-- `frontmatter[k]` lookup. -/
def fmGet (fm : FM) (k : String) : Option String :=
  match fm with
  | [] => none
  | (k', v) :: rest => if k' = k then some v else fmGet rest k

/-- JS truthiness of `frontmatter[k]` (absent or `""` is falsy). -/
def fmTruthy (fm : FM) (k : String) : Bool :=
  match fmGet fm k with
  | none => false
  | some v => !(v == "")

/-- `frontmatter[k]` as a string, defaulting missing to `""`. -/
def fmGetD (fm : FM) (k : String) : String :=
  (fmGet fm k).getD ""

/-- JS object assignment `frontmatter[k] = v`. -/
def fmSet (fm : FM) (k : String) (v : String) : FM :=
  match fm with
  | [] => [(k, v)]
  | (k', v') :: rest =>
    if k' = k then (k', v) :: rest else (k', v') :: fmSet rest k v

/-- One local note file, in parsed form: file name, frontmatter map and
body text (the body `parseNoteMd` returns, i.e. already trimmed). The
textual parse/write layer is verified separately by the round-trip
theorems below. -/
structure NoteFile where
  name : String
  fm : FM
  body : String
deriving DecidableEq, Repr

/-! ## Effects

Remote API calls and local writes the engines perform, in order. -/

/-- Remote page properties sent on create/patch: `Topic` (title),
`Type`, `Status`; `createdByClaude` is the `'Created by Claude'`
checkbox set only on create. -/
structure PageProps where
  topic : Option String
  ptype : Option String
  pstatus : Option String
  createdByClaude : Bool
deriving DecidableEq, Repr

/-- Reified engine effects, in program order. -/
inductive Eff where
  /-- `fetchAllPageBlocks(pageId)` — paginated GET of content blocks. -/
  | fetchBlocks (pageId : String)
  /-- `DELETE /v1/blocks/{blockId}`. -/
  | deleteBlock (blockId : String)
  /-- `PATCH /v1/blocks/{pageId}/children` with one chunk. -/
  | appendChildren (pageId : String) (blocks : List NBlock)
  /-- `POST /v1/pages` with properties and first children batch. -/
  | createPage (props : PageProps) (children : List NBlock)
  /-- `PATCH /v1/pages/{pageId}` with properties. -/
  | patchPage (pageId : String) (props : PageProps)
  /-- `writeNoteMd(filePath, frontmatter, body)`. -/
  | writeNote (name : String) (fm : FM) (body : String)
  /-- `fs.writeFileSync(NOTES_SYNC_STATE, ...)` in `saveNotesSyncState`. -/
  | writeLedgerFile
  /-- `fs.writeFileSync(NOTES_CONFLICTS, conflictMd)`. -/
  | writeConflictsFile
deriving DecidableEq, Repr

/-- Remote calls that mutate the backend (create, delete, append,
patch). -/
def Eff.isRemoteMutation : Eff → Bool
  | .deleteBlock _ => true
  | .appendChildren _ _ => true
  | .createPage _ _ => true
  | .patchPage _ _ => true
  | _ => false

/-- Any remote call, mutating or read-only. -/
def Eff.isRemoteCall : Eff → Bool
  | .fetchBlocks _ => true
  | e => e.isRemoteMutation

/-- Local filesystem writes (note file, ledger file, conflict report). -/
def Eff.isLocalWrite : Eff → Bool
  | .writeNote _ _ _ => true
  | .writeLedgerFile => true
  | .writeConflictsFile => true
  | _ => false

/-- Block payload carried by a transmission effect. -/
def Eff.blocksSent : Eff → List NBlock
  | .appendChildren _ bs => bs
  | .createPage _ cs => cs
  | _ => []

/-- The remote store as seen by `deleteAllBlocks`: pageId → its content
blocks, each with a block id. -/
abbrev Remote := List (String × List (String × NBlock))

/-- `deleteAllBlocks(pageId)`: fetch all blocks, then delete each. -/
def deleteAllBlocksEffs (remote : Remote) (pid : String) : List Eff :=
  Eff.fetchBlocks pid ::
    (((lookupEntry' remote pid).getD []).map fun b => Eff.deleteBlock b.1)
where
  /-- assoc lookup into the remote store -/
  lookupEntry' (r : Remote) (k : String) : Option (List (String × NBlock)) :=
    match r with
    | [] => none
    | (k', v) :: rest => if k' = k then some v else lookupEntry' rest k

/-- `appendBlocks(pageId, blocks)`: one `PATCH .../children` per
100-block chunk. -/
def appendBlocksEffs (pid : String) (blocks : List NBlock) : List Eff :=
  (chunks100 blocks).map (Eff.appendChildren pid)

/-- The create path of `notes push` (brain.js lines 1242–1252): a create
call carrying the first 100 encoded blocks, then `appendBlocks` on the
remainder when more than 100 blocks were encoded. -/
def createPageEffs (props : PageProps) (pid : String) (blocks : List NBlock) :
    List Eff :=
  Eff.createPage props (blocks.take 100) ::
    (if 100 < blocks.length then appendBlocksEffs pid (blocks.drop 100) else [])

/-! ## Push engine (`notes push`, brain.js lines 1199–1364) -/

/-- The canonical reference `https://notion.so/` followed by the id
with every dash removed (the JS global-replace of dashes). -/
def notionUrlOf (pid : String) : String :=
  "https://notion.so/" ++ (pid.data.filter (fun c => c ≠ '-')).asString

/-- `file.replace('.md', '')`: remove the first occurrence of `.md`. -/
def dropMdExt (s : String) : String :=
  go s.data |>.asString
where
  go : List Char → List Char
    | '.' :: 'm' :: 'd' :: rest => rest
    | c :: rest => c :: go rest
    | [] => []

/-- Conflict record pushed onto `conflicts` (brain.js lines 1288–1294),
with the report's `c.frontmatter.notionUrl || c.frontmatter.id` page
reference resolved. -/
structure ConflictRec where
  file : String
  localHash : String
  lastSyncLocalHash : String
  notionHash : String
  pageRef : String
deriving DecidableEq, Repr

/-- Push-run classification of one local file. -/
inductive PushClass where
  | create
  | orphaned
  | unchanged
  | conflict
  | localPush
deriving DecidableEq, Repr

/-- The decision chain of `notes push` for one file, in source order:
no truthy `id` → Create; no ledger entry → Orphaned (skip); `C == L` →
Unchanged (skip); `L != R` → Conflict; else → safe push. -/
def pushClassify (hash : String → String) (st : Ledger) (f : NoteFile) :
    PushClass :=
  if !(fmTruthy f.fm "id") then .create
  else
    match lookupEntry st (fmGetD f.fm "id") with
    | none => .orphaned
    | some existing =>
      if hash f.body = existing.localHash then .unchanged
      else if existing.notionHash ≠ existing.localHash then .conflict
      else .localPush

/-- Push-run configuration: digest function, the external
`markdownToBlocks` encoder, the current timestamp, the remote-assigned
id for the n-th created page, the remote block store, and the dry-run
flag. -/
structure PushCfg where
  hash : String → String
  m2b : String → List NBlock
  now : String
  idGen : Nat → String
  remote : Remote
  dryRun : Bool

/-- Accumulated push-run state: evolving ledger, files as (re)written,
effect trace, conflict records, number of creates performed. -/
structure PushAcc where
  state : Ledger
  store : List NoteFile
  effs : List Eff
  conflicts : List ConflictRec
  created : Nat
deriving Repr

/-- Properties sent with a create call (brain.js lines 1231–1240):
`Topic` from `frontmatter.title || file.replace('.md','')`, the
`Created by Claude` checkbox, and `Type`/`Status` when truthy. -/
def createProps (fm : FM) (name : String) : PageProps where
  topic := some (if fmTruthy fm "title" then fmGetD fm "title" else dropMdExt name)
  ptype := if fmTruthy fm "type" then some (fmGetD fm "type") else none
  pstatus := if fmTruthy fm "status" then some (fmGetD fm "status") else none
  createdByClaude := true

/-- Properties for the post-push `PATCH /v1/pages` (brain.js lines
1312–1321): `Topic`/`Type`/`Status`, each only when truthy. -/
def patchProps (fm : FM) : PageProps where
  topic := if fmTruthy fm "title" then some (fmGetD fm "title") else none
  ptype := if fmTruthy fm "type" then some (fmGetD fm "type") else none
  pstatus := if fmTruthy fm "status" then some (fmGetD fm "status") else none
  createdByClaude := false

/-- `Object.keys(properties).length > 0` for the patch call. -/
def patchPropsNonempty (fm : FM) : Bool :=
  fmTruthy fm "title" || fmTruthy fm "type" || fmTruthy fm "status"

/-- Frontmatter fields written back after a create (brain.js lines
1254–1257: id, notionUrl, lastSyncedAt, contentHash, in that order). -/
def createWriteBack (fm : FM) (pid now curHash : String) : FM :=
  fmSet (fmSet (fmSet (fmSet fm "id" pid) "notionUrl" (notionUrlOf pid))
    "lastSyncedAt" now) "contentHash" curHash

/-- Frontmatter fields written back after a safe push (brain.js lines
1326–1327: lastSyncedAt, contentHash). -/
def pushWriteBack (fm : FM) (now curHash : String) : FM :=
  fmSet (fmSet fm "lastSyncedAt" now) "contentHash" curHash

/-- Processing of one `.md` file inside the `notes push` loop
(brain.js lines 1215–1336), mirroring the source's decision chain. -/
def pushStep (cfg : PushCfg) (acc : PushAcc) (f : NoteFile) : PushAcc :=
  let currentHash := cfg.hash f.body
  if !(fmTruthy f.fm "id") then
    -- New local note (no Notion ID)
    if cfg.dryRun then { acc with store := acc.store ++ [f] }
    else
      let blocks := cfg.m2b f.body
      let pid := cfg.idGen acc.created
      let fm' := createWriteBack f.fm pid cfg.now currentHash
      { state := setEntry acc.state pid
          { slug := dropMdExt f.name
            title := if fmTruthy f.fm "title" then fmGetD f.fm "title" else f.name
            notionUpdated := cfg.now
            localHash := currentHash
            notionHash := currentHash }
        store := acc.store ++ [{ f with fm := fm' }]
        effs := acc.effs ++ createPageEffs (createProps f.fm f.name) pid blocks
          ++ [Eff.writeNote f.name fm' f.body]
        conflicts := acc.conflicts
        created := acc.created + 1 }
  else
    match lookupEntry acc.state (fmGetD f.fm "id") with
    | none =>
      -- remoteId present but no ledger entry: orphaned, skipped
      { acc with store := acc.store ++ [f] }
    | some existing =>
      if currentHash = existing.localHash then
        -- unchanged, skipped
        { acc with store := acc.store ++ [f] }
      else if existing.notionHash ≠ existing.localHash then
        -- conflict: record and skip; ledger untouched
        { acc with
          store := acc.store ++ [f]
          conflicts := acc.conflicts ++
            [{ file := f.name
               localHash := currentHash
               lastSyncLocalHash := existing.localHash
               notionHash := existing.notionHash
               pageRef := if fmTruthy f.fm "notionUrl" then fmGetD f.fm "notionUrl"
                          else fmGetD f.fm "id" }] }
      else if cfg.dryRun then { acc with store := acc.store ++ [f] }
      else
        -- only local changed: delete all blocks, re-append, patch props
        let blocks := cfg.m2b f.body
        let pid := fmGetD f.fm "id"
        let fm' := pushWriteBack f.fm cfg.now currentHash
        { state := setEntry acc.state pid
            { existing with
              localHash := currentHash
              notionHash := currentHash
              notionUpdated := cfg.now }
          store := acc.store ++ [{ f with fm := fm' }]
          effs := acc.effs ++ deleteAllBlocksEffs cfg.remote pid
            ++ appendBlocksEffs pid blocks
            ++ (if patchPropsNonempty f.fm then [Eff.patchPage pid (patchProps f.fm)] else [])
            ++ [Eff.writeNote f.name fm' f.body]
          conflicts := acc.conflicts
          created := acc.created }

/-- Initial accumulator of a push run over ledger `st`. -/
def pushInit (st : Ledger) : PushAcc :=
  { state := st, store := [], effs := [], conflicts := [], created := 0 }

/-- The per-file loop together with the classification each file
received (classified against the ledger as it stood at that file's
turn, exactly as the source's sequential loop does). -/
def pushFoldTrace (cfg : PushCfg) (acc : PushAcc) :
    List NoteFile → PushAcc × List PushClass
  | [] => (acc, [])
  | f :: rest =>
    let r := pushFoldTrace cfg (pushStep cfg acc f) rest
    (r.1, pushClassify cfg.hash acc.state f :: r.2)

/-- A complete `notes push` run: the file loop, then the conflict-report
write (only when conflicts exist and not dry-run), then
`saveNotesSyncState` (writes only when not dry-run). -/
def pushRun (cfg : PushCfg) (st : Ledger) (store : List NoteFile) : PushAcc :=
  let acc := (pushFoldTrace cfg (pushInit st) store).1
  let acc := if acc.conflicts ≠ [] && !cfg.dryRun then
      { acc with effs := acc.effs ++ [Eff.writeConflictsFile] }
    else acc
  if cfg.dryRun then acc else { acc with effs := acc.effs ++ [Eff.writeLedgerFile] }

/-- The classification sequence of a push run. -/
def pushClassesOf (cfg : PushCfg) (st : Ledger) (store : List NoteFile) :
    List PushClass :=
  (pushFoldTrace cfg (pushInit st) store).2

/-! ## Pull engine (`notes pull`, brain.js lines 1120–1197)

The paginated database query is modelled by presenting the run with the
flattened list of remote pages the query loop yields; per-page work is
exactly the loop body. -/

/-- `getPlainText(richText)` (brain.js lines 135–138). -/
def getPlainText (rt : List RichTextSpan) : String :=
  String.join (rt.map (·.plainText))

/-- One remote page as the query returns it, together with the content
blocks a subsequent `fetchAllPageBlocks` would yield for it. -/
structure RPage where
  id : String
  topicTitle : List RichTextSpan
  ptype : Option String
  pstatus : Option String
  marker : String
  blocks : List NBlock
deriving Repr

/-- `getPlainText(page.properties?.Topic?.title) || 'Untitled'`. -/
def pageTitle (p : RPage) : String :=
  let t := getPlainText p.topicTitle
  if t = "" then "Untitled" else t

/-- The slug-derived local file name `${slug}.md` of a page. -/
def pageFile (p : RPage) : String :=
  slugify (pageTitle p) ++ ".md"

/-- Pull-run configuration. -/
structure PullCfg where
  hash : String → String
  now : String
  dryRun : Bool

/-- Accumulated pull-run state: evolving ledger, the set of local note
file names present, and the effect trace. -/
structure PullAcc where
  state : Ledger
  files : List String
  effs : List Eff
deriving Repr

/-- The `Unchanged` test of the pull loop (brain.js line 1151): ledger
entry exists, the local file exists, and the stored `notionUpdated`
marker equals the page's current `last_edited_time`. -/
def pullSkips (st : Ledger) (files : List String) (p : RPage) : Bool :=
  match lookupEntry st p.id with
  | none => false
  | some e => files.contains (pageFile p) && (e.notionUpdated == p.marker)

/-- Frontmatter written by a pull (brain.js lines 1160–1168). -/
def pullFM (cfg : PullCfg) (p : RPage) (mdBody : String) : FM :=
  [("id", p.id), ("title", pageTitle p), ("type", p.ptype.getD ""),
   ("status", p.pstatus.getD ""), ("notionUrl", notionUrlOf p.id),
   ("lastSyncedAt", cfg.now), ("contentHash", cfg.hash mdBody)]

/-- Processing of one remote page inside the pull loop. On a skip,
nothing happens; otherwise all blocks are fetched, transcoded, the file
is written (unless dry-run) and the ledger entry is set (the source
mutates the in-memory state even on dry-run; only persistence is
suppressed). -/
def pullStep (cfg : PullCfg) (acc : PullAcc) (p : RPage) : PullAcc :=
  if pullSkips acc.state acc.files p then acc
  else
    let mdBody := blocksToMarkdown p.blocks
    let fname := pageFile p
    let h := cfg.hash mdBody
    { state := setEntry acc.state p.id
        { slug := slugify (pageTitle p)
          title := pageTitle p
          notionUpdated := p.marker
          localHash := h
          notionHash := h }
      files := if cfg.dryRun then acc.files
        else if acc.files.contains fname then acc.files else acc.files ++ [fname]
      effs := acc.effs ++ [Eff.fetchBlocks p.id]
        ++ (if cfg.dryRun then [] else [Eff.writeNote fname (pullFM cfg p mdBody) mdBody]) }

/-- The pull loop with the per-page skip/pull classification trace
(`true` means classified Unchanged and skipped). -/
def pullFoldTrace (cfg : PullCfg) (acc : PullAcc) :
    List RPage → PullAcc × List Bool
  | [] => (acc, [])
  | p :: rest =>
    let r := pullFoldTrace cfg (pullStep cfg acc p) rest
    (r.1, pullSkips acc.state acc.files p :: r.2)

/-- A complete `notes pull` run: the page loop, then
`saveNotesSyncState` (writes only when not dry-run). -/
def pullRun (cfg : PullCfg) (st : Ledger) (files : List String)
    (pages : List RPage) : PullAcc :=
  let acc := (pullFoldTrace cfg { state := st, files := files, effs := [] } pages).1
  if cfg.dryRun then acc else { acc with effs := acc.effs ++ [Eff.writeLedgerFile] }

/-- The skip/pull classification sequence of a pull run. -/
def pullClassesOf (cfg : PullCfg) (st : Ledger) (files : List String)
    (pages : List RPage) : List Bool :=
  (pullFoldTrace cfg { state := st, files := files, effs := [] } pages).2

/-! ## Note file format (`parseNoteMd` / `writeNoteMd`,
brain.js lines 1048–1075)

This layer works on `List Char` so that the regex
`^---\n([\s\S]*?)\n---\n([\s\S]*)$`, the `split`/`join` calls and
`trim` can be modelled character by character. -/

/-- The whitespace characters `trim` removes (ASCII subset). -/
def isWsChar (c : Char) : Bool :=
  c == ' ' || c == '\t' || c == '\n' || c == '\r'

/-- Remove trailing whitespace. -/
def dropTrailWs (cs : List Char) : List Char :=
  (cs.reverse.dropWhile isWsChar).reverse

/-- JS `String.prototype.trim`: strip whitespace at both ends. -/
def trimL (cs : List Char) : List Char :=
  dropTrailWs (cs.dropWhile isWsChar)

/-- `pat` is a leading segment of `cs`. -/
def leadsWith : List Char → List Char → Bool
  | [], _ => true
  | _, [] => false
  | a :: as, b :: bs => a == b && leadsWith as bs

/-- The five characters whose first occurrence the non-greedy
`([\s\S]*?)\n---\n` stops at. -/
def delimPat : List Char := ['\n', '-', '-', '-', '\n']

/-- Scan for the first occurrence of `"\n---\n"`; on success return the
characters before it (the regex's first capture) and the characters
after it (the second capture). -/
def findDelim : List Char → Option (List Char × List Char)
  | [] => none
  | c :: rest =>
    if leadsWith delimPat (c :: rest) then some ([], (c :: rest).drop 5)
    else
      match findDelim rest with
      | some (a, b) => some (c :: a, b)
      | none => none

/-- JS `str.split(sep)` for a one-character separator, as (first
segment, remaining segments); JS's array is the first segment consed
onto the rest. -/
def splitOnChar (sep : Char) : List Char → List Char × List (List Char)
  | [] => ([], [])
  | c :: rest =>
    let r := splitOnChar sep rest
    if c = sep then ([], r.1 :: r.2) else (c :: r.1, r.2)

/-- JS `parts.join(sep)` for a one-character separator. -/
def joinWith (sep : Char) : List (List Char) → List Char
  | [] => []
  | [l] => l
  | l :: l' :: ls => l ++ sep :: joinWith sep (l' :: ls)

/-- JS object assignment on the character-level frontmatter map. -/
def cfmSet (fm : List (List Char × List Char)) (k v : List Char) :
    List (List Char × List Char) :=
  match fm with
  | [] => [(k, v)]
  | (k', v') :: rest =>
    if k' = k then (k', v) :: rest else (k', v') :: cfmSet rest k v

/-- One iteration of the `match[1].split('\n').forEach(...)` loop of
`parseNoteMd`: split the line on `':'`; when the key part is nonempty
and a `':'` was present, store trimmed key ↦ trimmed rejoined value. -/
def pfmStep (acc : List (List Char × List Char)) (line : List Char) :
    List (List Char × List Char) :=
  let key := (splitOnChar ':' line).1
  let rest := (splitOnChar ':' line).2
  if key ≠ [] ∧ rest ≠ [] then
    cfmSet acc (trimL key) (trimL (joinWith ':' rest))
  else acc

/-- The header-line loop of `parseNoteMd`. -/
def parseFMLines (lines : List (List Char)) : List (List Char × List Char) :=
  lines.foldl pfmStep []

/-- The line list of the captured header region. -/
def splitLines (cs : List Char) : List (List Char) :=
  (splitOnChar '\n' cs).1 :: (splitOnChar '\n' cs).2

/-- Whether the header regex matches `content` at all. -/
def headerMatches (content : List Char) : Bool :=
  leadsWith ['-', '-', '-', '\n'] content && (findDelim (content.drop 4)).isSome

/-- `parseNoteMd` on the file content: on a regex match, the parsed
header map and the trimmed remainder; otherwise empty frontmatter and
the whole content as body. -/
def parseNoteMd (content : List Char) :
    List (List Char × List Char) × List Char :=
  if leadsWith ['-', '-', '-', '\n'] content then
    match findDelim (content.drop 4) with
    | some (fmRaw, rest) => (parseFMLines (splitLines fmRaw), trimL rest)
    | none => ([], content)
  else ([], content)

/-- One header line `${k}: ${v}`. -/
def fmLine (kv : List Char × List Char) : List Char :=
  kv.1 ++ ':' :: ' ' :: kv.2

/-- `writeNoteMd`'s file content
`---\n${yaml}\n---\n\n${body}\n` where `yaml` joins the
`${k}: ${v}` lines with newlines. -/
def writeNoteMd (fm : List (List Char × List Char)) (body : List Char) :
    List Char :=
  '-' :: '-' :: '-' :: '\n' :: joinWith '\n' (fm.map fmLine)
    ++ '\n' :: '-' :: '-' :: '-' :: '\n' :: '\n' :: (body ++ ['\n'])

/-- The remoteIds carried (truthily) by the files of a local store, in
scan order. -/
def truthyIds (store : List NoteFile) : List String :=
  store.filterMap fun f =>
    if fmTruthy f.fm "id" then some (fmGetD f.fm "id") else none

/-- The push classifications that skip the file without any remote
call: Orphaned, Unchanged and Conflict. -/
def pushSkipClass : PushClass → Bool
  | .orphaned => true
  | .unchanged => true
  | .conflict => true
  | _ => false

/-- A remote page is fully synchronised with the local state: a ledger
entry for its id exists, its stored marker equals the page's current
marker, and the slug-derived local file exists. -/
def pageSynced (st : Ledger) (files : List String) (p : RPage) : Prop :=
  ∃ e, lookupEntry st p.id = some e ∧ e.notionUpdated = p.marker ∧
    files.contains (pageFile p) = true

/-! ## Witness fixtures -/

/-- Identity digest used to instantiate the `hash` parameter in
concrete witnesses (the engine uses fingerprints only as an equality
oracle). -/
def hashW : String → String := fun s => s

/-- A tiny stand-in encoder for the external `markdownToBlocks`. -/
def m2bW : String → List NBlock := fun s => [.paragraph [⟨s, false, false, false, false, none⟩]]

/-- A concrete push configuration for witnesses. -/
def cfgW : PushCfg where
  hash := hashW
  m2b := m2bW
  now := "2026-01-02T00:00:00.000Z"
  idGen := fun n => "new" ++ toString n
  remote := [("X", [("blk1", .divider), ("blk2", .paragraph [])])]
  dryRun := false

/-- A concrete pull configuration for witnesses. -/
def pullCfgW : PullCfg where
  hash := hashW
  now := "2026-01-02T00:00:00.000Z"
  dryRun := false

/-- A concrete two-file local store for witnesses: one tracked file and
one untracked (Create-eligible) file. -/
def storeW : List NoteFile :=
  [⟨"a.md", [("id", "X"), ("title", "A")], "body-a"⟩,
   ⟨"new.md", [("title", "New")], "body-new"⟩]

/-- A ledger whose single entry is in the conflicted configuration
(`L = "h1"` differs from `R = "h2"`). -/
def ledgerConflictW : Ledger := [("X", ⟨"c", "t", "m", "h1", "h2"⟩)]

/-- The store matching `ledgerConflictW`: one tracked file whose body
fingerprint (under `hashW`) differs from the stored `L`. -/
def storeConflictW : List NoteFile := [⟨"c.md", [("id", "X")], "b"⟩]

/-- Two remote pages whose titles collapse to the same slug `"x"`; the
second page is already tracked with a current marker, but its local
file is missing. -/
def pagesFeedbackW : List RPage :=
  [{ id := "r1"
     topicTitle := [⟨"x!", false, false, false, false, none⟩]
     ptype := none
     pstatus := none
     marker := "mA"
     blocks := [] },
   { id := "r2"
     topicTitle := [⟨"x?", false, false, false, false, none⟩]
     ptype := none
     pstatus := none
     marker := "mB"
     blocks := [] }]

/-- The ledger matching `pagesFeedbackW`: only the second page is
tracked, with its marker up to date. -/
def ledgerFeedbackW : Ledger := [("r2", ⟨"x", "x?", "mB", "h", "h"⟩)]

/-- Two concrete remote pages whose distinct titles collapse to the
same slug (`"a!"` and `"a?"` both slugify to `"a"`). -/
def pagesClashW : List RPage :=
  [{ id := "q1"
     topicTitle := [⟨"a!", false, false, false, false, none⟩]
     ptype := none
     pstatus := none
     marker := "m1"
     blocks := [] },
   { id := "q2"
     topicTitle := [⟨"a?", false, false, false, false, none⟩]
     ptype := none
     pstatus := none
     marker := "m2"
     blocks := [] }]

/-- Two concrete remote pages ("Alpha", "Beta") for witnesses. -/
def pagesW : List RPage :=
  [{ id := "p1"
     topicTitle := [⟨"Alpha", false, false, false, false, none⟩]
     ptype := none
     pstatus := none
     marker := "m1"
     blocks := [.paragraph [⟨"a", false, false, false, false, none⟩]] },
   { id := "p2"
     topicTitle := [⟨"Beta", false, false, false, false, none⟩]
     ptype := some "Note"
     pstatus := some "Active"
     marker := "m2"
     blocks := [.divider] }]

/-!
# Theorems
-/

/-! ## Helper lemmas on association maps and chunking -/

theorem lookupEntry_setEntry_self (st : Ledger) (k : String) (e : LEntry) :
    lookupEntry (setEntry st k e) k = some e := by
  induction st with
  | nil => simp [setEntry, lookupEntry]
  | cons kv rest ih =>
    by_cases h : kv.1 = k
    · simp [setEntry, lookupEntry, h]
    · simp [setEntry, lookupEntry, h, ih]

theorem lookupEntry_setEntry_ne (st : Ledger) (k k' : String) (e : LEntry)
    (h : k' ≠ k) : lookupEntry (setEntry st k' e) k = lookupEntry st k := by
  induction st with
  | nil => simp [setEntry, lookupEntry, h]
  | cons kv rest ih =>
    by_cases h2 : kv.1 = k'
    · simp only [setEntry, h2, if_true]
      simp [lookupEntry, h2, h]
    · simp only [setEntry, h2, if_false]
      by_cases h3 : kv.1 = k <;> simp [lookupEntry, h3, ih]

theorem chunks100_le {α : Type} (l : List α) :
    ∀ c ∈ chunks100 l, c.length ≤ 100 := by
  induction l using chunks100.induct with
  | case1 => intro c hc; simp [chunks100] at hc
  | case2 x xs ih =>
    intro c hc
    rw [chunks100] at hc
    rcases List.mem_cons.mp hc with h | h
    · subst h
      simp only [List.length_take]
      exact Nat.min_le_left 100 (x :: xs).length
    · exact ih c h

theorem chunks100_flatten {α : Type} (l : List α) :
    (chunks100 l).flatten = l := by
  induction l using chunks100.induct with
  | case1 => simp [chunks100]
  | case2 x xs ih =>
    rw [chunks100]
    simp only [List.flatten_cons, ih, List.take_append_drop]

/-! ## C1: push classification by the three fingerprints -/

/-- C1: for a local note with a remoteId that has a ledger entry, the
push engine classifies by the three fingerprints `C` (current body
hash), `L` (stored localHash) and `R` (stored notionHash): Unchanged
iff `C = L`; OnlyLocalChanged iff `C ≠ L` and `L = R`; Conflict iff
`C ≠ L` and `L ≠ R`. In the Conflict case the file is skipped (no
effects), a conflict record is appended, and the ledger is unchanged. -/
theorem push_fingerprint_classification
    (cfg : PushCfg) (acc : PushAcc) (f : NoteFile) (e : LEntry)
    (hid : fmTruthy f.fm "id" = true)
    (hled : lookupEntry acc.state (fmGetD f.fm "id") = some e) :
    (pushClassify cfg.hash acc.state f = .unchanged ↔
      cfg.hash f.body = e.localHash) ∧
    (pushClassify cfg.hash acc.state f = .localPush ↔
      cfg.hash f.body ≠ e.localHash ∧ e.localHash = e.notionHash) ∧
    (pushClassify cfg.hash acc.state f = .conflict ↔
      cfg.hash f.body ≠ e.localHash ∧ e.localHash ≠ e.notionHash) ∧
    (pushClassify cfg.hash acc.state f = .conflict →
      (pushStep cfg acc f).effs = acc.effs ∧
      (pushStep cfg acc f).state = acc.state ∧
      (pushStep cfg acc f).store = acc.store ++ [f] ∧
      (pushStep cfg acc f).conflicts = acc.conflicts ++
        [{ file := f.name
           localHash := cfg.hash f.body
           lastSyncLocalHash := e.localHash
           notionHash := e.notionHash
           pageRef := if fmTruthy f.fm "notionUrl" then fmGetD f.fm "notionUrl"
                      else fmGetD f.fm "id" }]) := by
  have hcls : pushClassify cfg.hash acc.state f =
      (if cfg.hash f.body = e.localHash then .unchanged
       else if e.notionHash ≠ e.localHash then .conflict else .localPush) := by
    simp [pushClassify, hid, hled]
  refine ⟨?_, ?_, ?_, ?_⟩
  · rw [hcls]
    by_cases hCL : cfg.hash f.body = e.localHash <;>
      by_cases hLR : e.notionHash = e.localHash <;> simp [hCL, hLR]
  · rw [hcls]
    by_cases hCL : cfg.hash f.body = e.localHash <;>
      by_cases hLR : e.notionHash = e.localHash <;>
        simp [hCL, hLR] <;> exact fun h => hLR h.symm
  · rw [hcls]
    by_cases hCL : cfg.hash f.body = e.localHash <;>
      by_cases hLR : e.notionHash = e.localHash <;>
        simp [hCL, hLR] <;> exact fun h => hLR h.symm
  · intro hc
    rw [hcls] at hc
    by_cases hCL : cfg.hash f.body = e.localHash
    · simp [hCL] at hc
    · by_cases hLR : e.notionHash = e.localHash
      · simp [hCL, hLR] at hc
      · simp [pushStep, hid, hled, hCL, hLR]

/-- Witness for C1, in the Conflict configuration. -/
theorem push_fingerprint_classification_witness :
    (pushClassify cfgW.hash (pushInit [("X", ⟨"f", "t", "m", "h1", "h2"⟩)]).state
        ⟨"f.md", [("id", "X")], "b"⟩ = .conflict ↔
      cfgW.hash "b" ≠ "h1" ∧ "h1" ≠ "h2") ∧
    (pushStep cfgW (pushInit [("X", ⟨"f", "t", "m", "h1", "h2"⟩)])
        ⟨"f.md", [("id", "X")], "b"⟩).state = [("X", ⟨"f", "t", "m", "h1", "h2"⟩)] := by
  have h := push_fingerprint_classification cfgW
    (pushInit [("X", ⟨"f", "t", "m", "h1", "h2"⟩)])
    ⟨"f.md", [("id", "X")], "b"⟩ ⟨"f", "t", "m", "h1", "h2"⟩
    (by decide) (by decide)
  refine ⟨h.2.2.1, ?_⟩
  have hc : pushClassify cfgW.hash (pushInit [("X", ⟨"f", "t", "m", "h1", "h2"⟩)]).state
      ⟨"f.md", [("id", "X")], "b"⟩ = .conflict := by decide
  exact (h.2.2.2 hc).2.1

/-! ## C2: orphaned notes are skipped before fingerprints are consulted -/

/-- C2: a local note whose header carries a remoteId with no matching
ledger entry is classified Orphaned for every possible fingerprint
function (the decision precedes any fingerprint comparison), and the
step leaves everything except the scanned-store accumulator untouched:
no effect is emitted (in particular no create call — the document is
not recreated), no ledger change, no conflict record. -/
theorem push_orphaned_skip
    (cfg : PushCfg) (acc : PushAcc) (f : NoteFile)
    (hid : fmTruthy f.fm "id" = true)
    (hled : lookupEntry acc.state (fmGetD f.fm "id") = none) :
    (∀ hash' : String → String, pushClassify hash' acc.state f = .orphaned) ∧
    pushStep cfg acc f = { acc with store := acc.store ++ [f] } := by
  constructor
  · intro hash'
    simp [pushClassify, hid, hled]
  · simp [pushStep, hid, hled]

/-- Witness for C2. -/
theorem push_orphaned_skip_witness :
    (∀ hash' : String → String,
      pushClassify hash' (pushInit []).state ⟨"f.md", [("id", "ZZ")], "b"⟩ = .orphaned) ∧
    pushStep cfgW (pushInit []) ⟨"f.md", [("id", "ZZ")], "b"⟩ =
      { pushInit [] with store := [⟨"f.md", [("id", "ZZ")], "b"⟩] } :=
  push_orphaned_skip cfgW (pushInit []) ⟨"f.md", [("id", "ZZ")], "b"⟩
    (by decide) (by decide)

/-! ## C5: the OnlyLocalChanged push -/

/-- C5: when a file with a ledger entry is classified OnlyLocalChanged
(`C ≠ L`, `L = R`) and dry-run is off, the step's remote work is
exactly delete-all-blocks, then the ≤100-block append batches of the
re-encoded body, then a properties patch if the header has any of
title/type/status; afterwards the ledger entry for its remoteId has
`localHash = notionHash = C` and its `notionUpdated` marker advanced to
the run's current time. -/
theorem push_only_local_changed
    (cfg : PushCfg) (acc : PushAcc) (f : NoteFile) (e : LEntry)
    (hdry : cfg.dryRun = false)
    (hid : fmTruthy f.fm "id" = true)
    (hled : lookupEntry acc.state (fmGetD f.fm "id") = some e)
    (hCL : cfg.hash f.body ≠ e.localHash)
    (hLR : e.notionHash = e.localHash) :
    lookupEntry (pushStep cfg acc f).state (fmGetD f.fm "id") =
      some { e with localHash := cfg.hash f.body
                    notionHash := cfg.hash f.body
                    notionUpdated := cfg.now } ∧
    (pushStep cfg acc f).effs = acc.effs
      ++ deleteAllBlocksEffs cfg.remote (fmGetD f.fm "id")
      ++ appendBlocksEffs (fmGetD f.fm "id") (cfg.m2b f.body)
      ++ (if patchPropsNonempty f.fm then
            [Eff.patchPage (fmGetD f.fm "id") (patchProps f.fm)] else [])
      ++ [Eff.writeNote f.name (pushWriteBack f.fm cfg.now (cfg.hash f.body)) f.body] := by
  constructor
  · simp only [pushStep, hid, hled, hCL, hLR, hdry]
    simp [lookupEntry_setEntry_self, hCL, hLR]
  · simp [pushStep, hid, hled, hCL, hLR, hdry]

/-- Witness for C5. -/
theorem push_only_local_changed_witness :
    lookupEntry (pushStep cfgW (pushInit [("X", ⟨"f", "t", "m", "h1", "h1"⟩)])
        ⟨"f.md", [("id", "X"), ("title", "T")], "b"⟩).state "X" =
      some ⟨"f", "t", cfgW.now, "b", "b"⟩ ∧
    (pushStep cfgW (pushInit [("X", ⟨"f", "t", "m", "h1", "h1"⟩)])
        ⟨"f.md", [("id", "X"), ("title", "T")], "b"⟩).effs =
      [] ++ deleteAllBlocksEffs cfgW.remote "X"
        ++ appendBlocksEffs "X" (cfgW.m2b "b")
        ++ [Eff.patchPage "X" (patchProps [("id", "X"), ("title", "T")])]
        ++ [Eff.writeNote "f.md"
              (pushWriteBack [("id", "X"), ("title", "T")] cfgW.now "b") "b"] := by
  have h := push_only_local_changed cfgW (pushInit [("X", ⟨"f", "t", "m", "h1", "h1"⟩)])
    ⟨"f.md", [("id", "X"), ("title", "T")], "b"⟩ ⟨"f", "t", "m", "h1", "h1"⟩
    rfl (by decide) (by decide) (by decide) rfl
  refine ⟨h.1, ?_⟩
  have h2 := h.2
  simpa [pushInit] using h2

/-! ## C7: the 100-block transmission limit -/

/-- C7: `appendBlocks` partitions its input into consecutive chunks of
at most 100 blocks covering the whole list in order (one
`appendBlockChildren` call each); the create path sends the first 100
blocks with the create call and the remainder in ≤100-block append
batches, so every transmission call carries at most 100 blocks and
together they carry exactly the encoded list. -/
theorem transmission_chunk_limit
    (pid : String) (props : PageProps) (blocks : List NBlock) :
    (∀ eff ∈ appendBlocksEffs pid blocks, (Eff.blocksSent eff).length ≤ 100) ∧
    ((appendBlocksEffs pid blocks).map Eff.blocksSent).flatten = blocks ∧
    (∀ eff ∈ createPageEffs props pid blocks, (Eff.blocksSent eff).length ≤ 100) ∧
    ((createPageEffs props pid blocks).map Eff.blocksSent).flatten = blocks := by
  have happ : ∀ eff ∈ appendBlocksEffs pid blocks,
      (Eff.blocksSent eff).length ≤ 100 := by
    intro eff heff
    rcases List.mem_map.mp heff with ⟨c, hc, rfl⟩
    simpa [Eff.blocksSent] using chunks100_le blocks c hc
  have hflat : ((appendBlocksEffs pid blocks).map Eff.blocksSent).flatten = blocks := by
    simp only [appendBlocksEffs, List.map_map]
    have : (Eff.blocksSent ∘ Eff.appendChildren pid) = id := by
      funext c; rfl
    rw [this, List.map_id, chunks100_flatten]
  refine ⟨happ, hflat, ?_, ?_⟩
  · intro eff heff
    rcases List.mem_cons.mp heff with h | h
    · subst h
      simp only [Eff.blocksSent, List.length_take]
      exact Nat.min_le_left _ _
    · rcases (by split at h <;> simp_all : eff ∈ appendBlocksEffs pid (blocks.drop 100)) with h'
      rcases List.mem_map.mp h' with ⟨c, hc, rfl⟩
      simpa [Eff.blocksSent] using chunks100_le (blocks.drop 100) c hc
  · by_cases hlen : 100 < blocks.length
    · have hflat' : ((appendBlocksEffs pid (blocks.drop 100)).map Eff.blocksSent).flatten
          = blocks.drop 100 := by
        simp only [appendBlocksEffs, List.map_map]
        have : (Eff.blocksSent ∘ Eff.appendChildren pid) = id := by
          funext c; rfl
        rw [this, List.map_id, chunks100_flatten]
      simp [createPageEffs, hlen, Eff.blocksSent, hflat']
    · have : blocks.take 100 = blocks :=
        List.take_of_length_le (Nat.le_of_not_lt hlen)
      simp [createPageEffs, hlen, Eff.blocksSent, this]

/-! ## C3: pull skips fully synchronised pages, so a second pull
fetches nothing -/

theorem pullSkips_of_pageSynced (st : Ledger) (files : List String)
    (p : RPage) (h : pageSynced st files p) : pullSkips st files p = true := by
  rcases h with ⟨e, he, hm, hf⟩
  have hf' : pageFile p ∈ files := List.elem_iff.mp hf
  simp [pullSkips, he, hm, hf']

theorem pullStep_of_skip (cfg : PullCfg) (acc : PullAcc) (p : RPage)
    (h : pullSkips acc.state acc.files p = true) : pullStep cfg acc p = acc := by
  simp [pullStep, h]

theorem pullStep_files_mono (cfg : PullCfg) (acc : PullAcc) (p : RPage)
    (x : String) (h : acc.files.contains x = true) :
    (pullStep cfg acc p).files.contains x = true := by
  have h' : x ∈ acc.files := List.elem_iff.mp h
  unfold pullStep
  split
  · exact h
  · by_cases hdry : cfg.dryRun <;>
      by_cases hc : acc.files.contains (pageFile p) <;>
        simp_all [List.elem_iff, List.mem_append]

theorem pullStep_state_stable (cfg : PullCfg) (acc : PullAcc) (p q : RPage)
    (h : q.id ≠ p.id) :
    lookupEntry (pullStep cfg acc q).state p.id = lookupEntry acc.state p.id := by
  unfold pullStep
  split
  · rfl
  · exact lookupEntry_setEntry_ne acc.state p.id q.id _ h

theorem pullStep_synced_self (cfg : PullCfg) (acc : PullAcc) (p : RPage)
    (hdry : cfg.dryRun = false) :
    pageSynced (pullStep cfg acc p).state (pullStep cfg acc p).files p := by
  by_cases hs : pullSkips acc.state acc.files p = true
  · rw [pullStep_of_skip cfg acc p hs]
    unfold pullSkips at hs
    rcases hlk : lookupEntry acc.state p.id with _ | e
    · rw [hlk] at hs; exact absurd hs (by simp)
    · rw [hlk] at hs
      have := (Bool.and_eq_true _ _).mp hs
      exact ⟨e, hlk, by simpa using this.2, this.1⟩
  · have hstep : pullStep cfg acc p =
        { state := setEntry acc.state p.id
            { slug := slugify (pageTitle p), title := pageTitle p,
              notionUpdated := p.marker,
              localHash := cfg.hash (blocksToMarkdown p.blocks),
              notionHash := cfg.hash (blocksToMarkdown p.blocks) }
          files := if cfg.dryRun then acc.files
            else if acc.files.contains (pageFile p) then acc.files
            else acc.files ++ [pageFile p]
          effs := acc.effs ++ [Eff.fetchBlocks p.id]
            ++ (if cfg.dryRun then [] else
              [Eff.writeNote (pageFile p)
                (pullFM cfg p (blocksToMarkdown p.blocks)) (blocksToMarkdown p.blocks)]) } := by
      simp [pullStep, hs]
    refine ⟨_, by rw [hstep]; exact lookupEntry_setEntry_self .., rfl, ?_⟩
    rw [hstep]
    simp only [hdry, if_false]
    by_cases hc : pageFile p ∈ acc.files <;>
      simp [hc, List.elem_iff, List.mem_append]

theorem pullFold_preserves_synced (cfg : PullCfg) (pages : List RPage)
    (acc : PullAcc) (p : RPage) (h : pageSynced acc.state acc.files p)
    (hid : ∀ q ∈ pages, q.id ≠ p.id) :
    pageSynced (pullFoldTrace cfg acc pages).1.state
      (pullFoldTrace cfg acc pages).1.files p := by
  induction pages generalizing acc with
  | nil => exact h
  | cons q rest ih =>
    refine ih (pullStep cfg acc q) ?_ (fun r hr => hid r (List.mem_cons_of_mem q hr))
    rcases h with ⟨e, he, hm, hf⟩
    exact ⟨e, by rw [pullStep_state_stable cfg acc p q (hid q (List.mem_cons_self q rest))]; exact he,
      hm, pullStep_files_mono cfg acc q _ hf⟩

theorem pullFold_all_synced (cfg : PullCfg) (hdry : cfg.dryRun = false)
    (pages : List RPage) (acc : PullAcc)
    (hnodup : (pages.map RPage.id).Nodup) :
    ∀ p ∈ pages, pageSynced (pullFoldTrace cfg acc pages).1.state
      (pullFoldTrace cfg acc pages).1.files p := by
  induction pages generalizing acc with
  | nil => intro p hp; exact absurd hp (List.not_mem_nil p)
  | cons q rest ih =>
    intro p hp
    simp only [List.map_cons, List.nodup_cons] at hnodup
    rcases List.mem_cons.mp hp with rfl | hp'
    · exact pullFold_preserves_synced cfg rest (pullStep cfg acc p) p
        (pullStep_synced_self cfg acc p hdry)
        (fun r hr heq => hnodup.1 (heq ▸ List.mem_map.mpr ⟨r, hr, rfl⟩))
    · exact ih (pullStep cfg acc q) hnodup.2 p hp'

theorem pullFold_skips_all (cfg : PullCfg) (pages : List RPage) (acc : PullAcc)
    (h : ∀ p ∈ pages, pageSynced acc.state acc.files p) :
    (pullFoldTrace cfg acc pages).1 = acc := by
  induction pages with
  | nil => rfl
  | cons q rest ih =>
    have hq : pullStep cfg acc q = acc :=
      pullStep_of_skip cfg acc q
        (pullSkips_of_pageSynced _ _ q (h q (List.mem_cons_self q rest)))
    show (pullFoldTrace cfg (pullStep cfg acc q) rest).1 = acc
    rw [hq]
    exact ih (fun p hp => h p (List.mem_cons_of_mem q hp))

theorem pullRun_state_eq (cfg : PullCfg) (st : Ledger) (files : List String)
    (pages : List RPage) :
    (pullRun cfg st files pages).state =
      (pullFoldTrace cfg { state := st, files := files, effs := [] } pages).1.state := by
  by_cases hdry : cfg.dryRun <;> simp [pullRun, hdry]

theorem pullRun_files_eq (cfg : PullCfg) (st : Ledger) (files : List String)
    (pages : List RPage) :
    (pullRun cfg st files pages).files =
      (pullFoldTrace cfg { state := st, files := files, effs := [] } pages).1.files := by
  by_cases hdry : cfg.dryRun <;> simp [pullRun, hdry]

theorem pullRun_synced_effs (cfg : PullCfg) (st : Ledger) (files : List String)
    (pages : List RPage) (hdry : cfg.dryRun = false)
    (h : ∀ p ∈ pages, pageSynced st files p) :
    (pullRun cfg st files pages).effs = [Eff.writeLedgerFile] := by
  have hfix := pullFold_skips_all cfg pages { state := st, files := files, effs := [] } h
  simp [pullRun, hdry, hfix]

/-- C3: a remote document with a ledger entry, an existing local file
for its slug, and an unchanged `remoteEditMarker` is classified
Unchanged and its processing performs no block fetch, no file write and
no ledger-entry update (the step is the identity); consequently a pull
run immediately repeated after a successful (non-dry) pull performs no
block fetch at all — its whole effect trace is just the final ledger
persistence. -/
theorem pull_unchanged_second_pull_no_fetch :
    (∀ (cfg : PullCfg) (acc : PullAcc) (p : RPage) (e : LEntry),
      lookupEntry acc.state p.id = some e →
      acc.files.contains (pageFile p) = true →
      e.notionUpdated = p.marker →
      pullStep cfg acc p = acc) ∧
    (∀ (cfg : PullCfg) (st : Ledger) (files : List String) (pages : List RPage),
      cfg.dryRun = false →
      (pages.map RPage.id).Nodup →
      (pullRun cfg (pullRun cfg st files pages).state
        (pullRun cfg st files pages).files pages).effs = [Eff.writeLedgerFile]) := by
  constructor
  · intro cfg acc p e he hf hm
    exact pullStep_of_skip cfg acc p (pullSkips_of_pageSynced _ _ p ⟨e, he, hm, hf⟩)
  · intro cfg st files pages hdry hnodup
    refine pullRun_synced_effs cfg _ _ pages hdry ?_
    intro p hp
    rw [pullRun_state_eq, pullRun_files_eq]
    exact pullFold_all_synced cfg hdry pages
      { state := st, files := files, effs := [] } hnodup p hp

/-- Witness for C3: a two-page remote, pulled twice from an empty local
store; the second run's trace is exactly the ledger persistence. -/
theorem pull_unchanged_second_pull_no_fetch_witness :
    (pullRun pullCfgW
      (pullRun pullCfgW [] [] pagesW).state
      (pullRun pullCfgW [] [] pagesW).files pagesW).effs = [Eff.writeLedgerFile] :=
  pull_unchanged_second_pull_no_fetch.2 pullCfgW [] [] pagesW rfl (by decide)

/-! ## C4: dry-run writes nothing and classifies identically -/

theorem truthyIds_cons_true (f : NoteFile) (rest : List NoteFile)
    (h : fmTruthy f.fm "id" = true) :
    truthyIds (f :: rest) = fmGetD f.fm "id" :: truthyIds rest := by
  simp [truthyIds, h]

theorem truthyIds_cons_false (f : NoteFile) (rest : List NoteFile)
    (h : fmTruthy f.fm "id" = false) :
    truthyIds (f :: rest) = truthyIds rest := by
  simp [truthyIds, h]

theorem mem_truthyIds_tail {i : String} (f : NoteFile) (rest : List NoteFile)
    (h : i ∈ truthyIds rest) : i ∈ truthyIds (f :: rest) := by
  by_cases hid : fmTruthy f.fm "id" = true
  · rw [truthyIds_cons_true f rest hid]
    exact List.mem_cons_of_mem _ h
  · rw [truthyIds_cons_false f rest (by simpa using hid)]
    exact h

theorem pushStep_dry (cfg : PushCfg) (acc : PushAcc) (f : NoteFile)
    (hdry : cfg.dryRun = true) :
    (pushStep cfg acc f).effs = acc.effs ∧
    (pushStep cfg acc f).state = acc.state ∧
    (pushStep cfg acc f).created = acc.created := by
  unfold pushStep
  by_cases hid : fmTruthy f.fm "id" = true
  · simp only [hid, Bool.not_true, Bool.false_eq_true, if_false]
    rcases hlk : lookupEntry acc.state (fmGetD f.fm "id") with _ | e
    · exact ⟨rfl, rfl, rfl⟩
    · by_cases hCL : cfg.hash f.body = e.localHash
      · simp [hCL]
      · by_cases hLR : e.notionHash = e.localHash <;> simp [hCL, hLR, hdry]
  · simp [hid, hdry]

theorem pushFold_dry (cfg : PushCfg) (hdry : cfg.dryRun = true)
    (store : List NoteFile) :
    ∀ acc : PushAcc,
      (pushFoldTrace cfg acc store).1.effs = acc.effs ∧
      (pushFoldTrace cfg acc store).1.state = acc.state := by
  induction store with
  | nil => intro acc; exact ⟨rfl, rfl⟩
  | cons f rest ih =>
    intro acc
    have hstep := pushStep_dry cfg acc f hdry
    have hrec := ih (pushStep cfg acc f)
    exact ⟨hrec.1.trans hstep.1, hrec.2.trans hstep.2.1⟩

theorem pushRun_dry_effs (cfg : PushCfg) (st : Ledger) (store : List NoteFile)
    (hdry : cfg.dryRun = true) : (pushRun cfg st store).effs = [] := by
  have h := (pushFold_dry cfg hdry store (pushInit st)).1
  simp only [pushInit] at h
  simpa [pushRun, hdry, pushInit] using h

theorem pullStep_dry_effs (cfg : PullCfg) (acc : PullAcc) (p : RPage)
    (hdry : cfg.dryRun = true) :
    (pullStep cfg acc p).effs = acc.effs ∨
    (pullStep cfg acc p).effs = acc.effs ++ [Eff.fetchBlocks p.id] := by
  by_cases hs : pullSkips acc.state acc.files p = true
  · left; rw [pullStep_of_skip cfg acc p hs]
  · right; simp [pullStep, hs, hdry]

theorem pullFold_dry_effs (cfg : PullCfg) (hdry : cfg.dryRun = true)
    (pages : List RPage) :
    ∀ acc : PullAcc, ∀ e ∈ (pullFoldTrace cfg acc pages).1.effs,
      e ∈ acc.effs ∨ ∃ pid, e = Eff.fetchBlocks pid := by
  induction pages with
  | nil => intro acc e he; exact Or.inl he
  | cons p rest ih =>
    intro acc e he
    rcases ih (pullStep cfg acc p) e he with h | h
    · rcases pullStep_dry_effs cfg acc p hdry with hstep | hstep
      · rw [hstep] at h; exact Or.inl h
      · rw [hstep] at h
        rcases List.mem_append.mp h with h' | h'
        · exact Or.inl h'
        · exact Or.inr ⟨p.id, List.mem_singleton.mp h'⟩
    · exact Or.inr h

theorem pullRun_dry_effs (cfg : PullCfg) (st : Ledger) (files : List String)
    (pages : List RPage) (hdry : cfg.dryRun = true) :
    ∀ e ∈ (pullRun cfg st files pages).effs, ∃ pid, e = Eff.fetchBlocks pid := by
  intro e he
  have he' : e ∈ (pullFoldTrace cfg { state := st, files := files, effs := [] } pages).1.effs := by
    simpa [pullRun, hdry] using he
  rcases pullFold_dry_effs cfg hdry pages _ e he' with h | h
  · exact absurd h (List.not_mem_nil e)
  · exact h

/-- Shape analysis of one push step: either it changes neither ledger
nor create counter (all skip paths and dry-run), or it is a create
(falsy id, ledger gains the entry keyed by the generated id, counter
bumps), or it is a safe push (truthy id, ledger entry for that id
replaced). -/
theorem pushStep_state_shape (cfg : PushCfg) (acc : PushAcc) (f : NoteFile) :
    ((pushStep cfg acc f).state = acc.state ∧
      (pushStep cfg acc f).created = acc.created) ∨
    (fmTruthy f.fm "id" = false ∧
      (pushStep cfg acc f).created = acc.created + 1 ∧
      ∃ e, (pushStep cfg acc f).state = setEntry acc.state (cfg.idGen acc.created) e) ∨
    (fmTruthy f.fm "id" = true ∧
      (pushStep cfg acc f).created = acc.created ∧
      ∃ e, (pushStep cfg acc f).state = setEntry acc.state (fmGetD f.fm "id") e) := by
  by_cases hid : fmTruthy f.fm "id" = true
  · rcases hlk : lookupEntry acc.state (fmGetD f.fm "id") with _ | e
    · left; constructor <;> simp [pushStep, hid, hlk]
    · by_cases hCL : cfg.hash f.body = e.localHash
      · left; constructor <;> simp [pushStep, hid, hlk, hCL]
      · by_cases hLR : e.notionHash = e.localHash
        · by_cases hdry : cfg.dryRun = true
          · left; constructor <;> simp [pushStep, hid, hlk, hCL, hLR, hdry]
          · have hstate : (pushStep cfg acc f).state =
                setEntry acc.state (fmGetD f.fm "id")
                  { e with
                    localHash := cfg.hash f.body
                    notionHash := cfg.hash f.body
                    notionUpdated := cfg.now } := by
              simp [pushStep, hid, hlk, hCL, hLR, hdry]
            have hcr : (pushStep cfg acc f).created = acc.created := by
              simp [pushStep, hid, hlk, hCL, hLR, hdry]
            exact Or.inr (Or.inr ⟨hid, hcr, _, hstate⟩)
        · left; constructor <;> simp [pushStep, hid, hlk, hCL, hLR]
  · by_cases hdry : cfg.dryRun = true
    · left; constructor <;> simp [pushStep, hid, hdry]
    · have hstate : (pushStep cfg acc f).state =
          setEntry acc.state (cfg.idGen acc.created)
            { slug := dropMdExt f.name
              title := if fmTruthy f.fm "title" then fmGetD f.fm "title" else f.name
              notionUpdated := cfg.now
              localHash := cfg.hash f.body
              notionHash := cfg.hash f.body } := by
        simp [pushStep, hid, hdry]
      have hcr : (pushStep cfg acc f).created = acc.created + 1 := by
        simp [pushStep, hid, hdry]
      exact Or.inr (Or.inl ⟨by simpa using hid, hcr, _, hstate⟩)

theorem pushFold_dry_classes (cfg : PushCfg) (hdry : cfg.dryRun = true)
    (store : List NoteFile) :
    ∀ acc : PushAcc,
      (pushFoldTrace cfg acc store).2 = store.map (pushClassify cfg.hash acc.state) := by
  induction store with
  | nil => intro acc; rfl
  | cons f rest ih =>
    intro acc
    show pushClassify cfg.hash acc.state f :: (pushFoldTrace cfg (pushStep cfg acc f) rest).2
      = _ :: rest.map (pushClassify cfg.hash acc.state)
    rw [ih (pushStep cfg acc f), (pushStep_dry cfg acc f hdry).2.1]

theorem pushClassify_eq_of_lookup (hash : String → String) (st st' : Ledger)
    (f : NoteFile)
    (h : fmTruthy f.fm "id" = true →
      lookupEntry st' (fmGetD f.fm "id") = lookupEntry st (fmGetD f.fm "id")) :
    pushClassify hash st' f = pushClassify hash st f := by
  by_cases hid : fmTruthy f.fm "id" = true
  · unfold pushClassify
    rw [h hid]
  · simp [pushClassify, hid]

theorem pushFold_classes_vs_init (cfg : PushCfg) (st : Ledger) (N : Nat)
    (rest : List NoteFile) :
    ∀ acc : PushAcc,
      (∀ i ∈ truthyIds rest, lookupEntry acc.state i = lookupEntry st i) →
      (truthyIds rest).Nodup →
      (∀ n, acc.created ≤ n → n < N → cfg.idGen n ∉ truthyIds rest) →
      acc.created + rest.length ≤ N →
      (pushFoldTrace cfg acc rest).2 = rest.map (pushClassify cfg.hash st) := by
  induction rest with
  | nil => intros; rfl
  | cons f rest' ih =>
    intro acc hlook hnodup hfresh hbound
    have hsub : ∀ i ∈ truthyIds rest', i ∈ truthyIds (f :: rest') :=
      fun i hi => mem_truthyIds_tail f rest' hi
    have hhead : pushClassify cfg.hash acc.state f = pushClassify cfg.hash st f := by
      refine pushClassify_eq_of_lookup cfg.hash st acc.state f (fun hid => ?_)
      refine hlook _ ?_
      rw [truthyIds_cons_true f rest' hid]
      exact List.mem_cons_self _ _
    have htail : (pushFoldTrace cfg (pushStep cfg acc f) rest').2
        = rest'.map (pushClassify cfg.hash st) := by
      have hnodup' : (truthyIds rest').Nodup := by
        by_cases hid : fmTruthy f.fm "id" = true
        · have h2 := hnodup
          rw [truthyIds_cons_true f rest' hid] at h2
          exact h2.of_cons
        · have h2 := hnodup
          rw [truthyIds_cons_false f rest' (by simpa using hid)] at h2
          exact h2
      rcases pushStep_state_shape cfg acc f with ⟨hst, hcr⟩ | ⟨hid, hcr, e, hst⟩ | ⟨hid, hcr, e, hst⟩
      · refine ih (pushStep cfg acc f) ?_ hnodup' ?_ ?_
        · intro i hi
          rw [hst]; exact hlook i (hsub i hi)
        · intro n hn hN
          rw [hcr] at hn
          exact fun hmem => hfresh n hn hN (hsub _ hmem)
        · rw [hcr]; simp only [List.length_cons] at hbound; omega
      · -- create: ledger gains the freshly generated id
        refine ih (pushStep cfg acc f) ?_ hnodup' ?_ ?_
        · intro i hi
          rw [hst, lookupEntry_setEntry_ne]
          · exact hlook i (hsub i hi)
          · intro hgen
            exact hfresh acc.created (Nat.le_refl _)
              (by simp only [List.length_cons] at hbound; omega)
              (hgen ▸ hsub i hi)
        · intro n hn hN
          rw [hcr] at hn
          exact fun hmem => hfresh n (by omega) hN (hsub _ hmem)
        · rw [hcr]; simp only [List.length_cons] at hbound; omega
      · -- safe push: the entry for this file's own id is replaced
        refine ih (pushStep cfg acc f) ?_ hnodup' ?_ ?_
        · intro i hi
          rw [hst, lookupEntry_setEntry_ne]
          · exact hlook i (hsub i hi)
          · intro hgen
            have h2 := hnodup
            rw [truthyIds_cons_true f rest' hid] at h2
            exact (List.nodup_cons.mp h2).1 (hgen ▸ hi)
        · intro n hn hN
          rw [hcr] at hn
          exact fun hmem => hfresh n hn hN (hsub _ hmem)
        · rw [hcr]; simp only [List.length_cons] at hbound; omega
    show pushClassify cfg.hash acc.state f :: (pushFoldTrace cfg (pushStep cfg acc f) rest').2 = _
    rw [hhead, htail]
    rfl

theorem contains_append_of_not_mem (l extra : List String) (a : String)
    (h : a ∉ extra) : (l ++ extra).contains a = l.contains a := by
  by_cases hl : a ∈ l
  · simp [List.elem_iff, hl]
  · simp [List.elem_iff, hl, List.mem_append, h]

theorem pullStep_pull (cfg : PullCfg) (acc : PullAcc) (p : RPage)
    (hs : ¬ pullSkips acc.state acc.files p = true) :
    (pullStep cfg acc p).state = setEntry acc.state p.id
      { slug := slugify (pageTitle p)
        title := pageTitle p
        notionUpdated := p.marker
        localHash := cfg.hash (blocksToMarkdown p.blocks)
        notionHash := cfg.hash (blocksToMarkdown p.blocks) } ∧
    (pullStep cfg acc p).files =
      (if cfg.dryRun then acc.files
       else if acc.files.contains (pageFile p) = true then acc.files
       else acc.files ++ [pageFile p]) := by
  constructor <;> simp [pullStep, hs]

theorem pullFold_classes_dry_eq (cfg : PullCfg) (pages : List RPage) :
    ∀ (dacc racc : PullAcc) (extra : List String),
      racc.state = dacc.state →
      racc.files = dacc.files ++ extra →
      (∀ p ∈ pages, pageFile p ∉ extra) →
      (pages.map pageFile).Nodup →
      (pullFoldTrace { cfg with dryRun := true } dacc pages).2 =
        (pullFoldTrace { cfg with dryRun := false } racc pages).2 := by
  induction pages with
  | nil => intros; rfl
  | cons p rest ih =>
    intro dacc racc extra hst hfl hextra hnodup
    have hskip : pullSkips racc.state racc.files p = pullSkips dacc.state dacc.files p := by
      unfold pullSkips
      rw [hst, hfl, contains_append_of_not_mem _ _ _ (hextra p (List.mem_cons_self p rest))]
    simp only [List.map_cons, List.nodup_cons] at hnodup
    show pullSkips dacc.state dacc.files p ::
        (pullFoldTrace _ (pullStep { cfg with dryRun := true } dacc p) rest).2 =
      pullSkips racc.state racc.files p ::
        (pullFoldTrace _ (pullStep { cfg with dryRun := false } racc p) rest).2
    rw [hskip]
    by_cases hs : pullSkips dacc.state dacc.files p = true
    · rw [pullStep_of_skip _ dacc p hs, pullStep_of_skip _ racc p (by rw [hskip]; exact hs)]
      exact congrArg _ (ih dacc racc extra hst hfl
        (fun q hq => hextra q (List.mem_cons_of_mem p hq)) hnodup.2)
    · have hs2 : ¬ pullSkips racc.state racc.files p = true := by
        rw [hskip]; exact hs
      have hd := pullStep_pull { cfg with dryRun := true } dacc p hs
      have hr := pullStep_pull { cfg with dryRun := false } racc p hs2
      refine congrArg _ (ih (pullStep { cfg with dryRun := true } dacc p)
        (pullStep { cfg with dryRun := false } racc p)
        (if racc.files.contains (pageFile p) = true then extra
         else extra ++ [pageFile p])
        ?_ ?_ ?_ hnodup.2)
      · rw [hd.1, hr.1, hst]
      · rw [hd.2, hr.2, hfl]
        by_cases hc : (dacc.files ++ extra).contains (pageFile p) = true
        · simp only [show ({ cfg with dryRun := false } : PullCfg).dryRun = false from rfl,
            show ({ cfg with dryRun := true } : PullCfg).dryRun = true from rfl,
            Bool.false_eq_true, if_false, if_true, hc]
        · simp only [show ({ cfg with dryRun := false } : PullCfg).dryRun = false from rfl,
            show ({ cfg with dryRun := true } : PullCfg).dryRun = true from rfl,
            Bool.false_eq_true, if_false, if_true,
            (Bool.not_eq_true _).mp hc, List.append_assoc]
      · intro q hq
        split
        · exact hextra q (List.mem_cons_of_mem p hq)
        · intro hmem
          rcases List.mem_append.mp hmem with h' | h'
          · exact hextra q (List.mem_cons_of_mem p hq) h'
          · exact hnodup.1 (List.mem_singleton.mp h' ▸ List.mem_map.mpr ⟨q, hq, rfl⟩)

/-- Counterexample to C4 as stated: classification outcomes are NOT
identical between dry and real runs for every input. With two pages
whose titles collapse to the slug `"x"` — the first untracked, the
second tracked with a current marker but a missing local file — the
real pull writes `x.md` while processing the first page, so the second
page is then classified Unchanged; the dry run writes nothing, so the
same page is classified for fetching. -/
theorem dry_run_classification_counterexample :
    pullClassesOf { pullCfgW with dryRun := true } ledgerFeedbackW [] pagesFeedbackW ≠
      pullClassesOf { pullCfgW with dryRun := false } ledgerFeedbackW [] pagesFeedbackW ∧
    pullClassesOf { pullCfgW with dryRun := true } ledgerFeedbackW [] pagesFeedbackW
      = [false, false] ∧
    pullClassesOf { pullCfgW with dryRun := false } ledgerFeedbackW [] pagesFeedbackW
      = [false, true] := by
  refine ⟨by decide, by decide, by decide⟩

/-- C4 (amended): with the dry-run flag set, a push run performs no
effect at all and a pull run performs only read-only block fetches —
no local file write, no ledger write, no conflict-report write, no
mutating remote call, for every input. The per-file classification
code is the same as a non-dry run's, and the classification outcomes
coincide whenever the real run's own writes cannot feed back into
later classifications: for push, when the tracked remoteIds are
duplicate-free and the remote-assigned create ids are fresh; for pull,
when the remote pages' slugs are duplicate-free (otherwise, see the
counterexample). -/
theorem dry_run_reads_only :
    (∀ (cfg : PushCfg) (st : Ledger) (store : List NoteFile),
      cfg.dryRun = true → (pushRun cfg st store).effs = []) ∧
    (∀ (cfg : PullCfg) (st : Ledger) (files : List String) (pages : List RPage),
      cfg.dryRun = true →
      ∀ e ∈ (pullRun cfg st files pages).effs,
        e.isLocalWrite = false ∧ e.isRemoteMutation = false) ∧
    (∀ (cfg : PushCfg) (st : Ledger) (store : List NoteFile),
      (truthyIds store).Nodup →
      (∀ n, n < store.length → cfg.idGen n ∉ truthyIds store) →
      pushClassesOf { cfg with dryRun := true } st store =
        pushClassesOf { cfg with dryRun := false } st store) ∧
    (∀ (cfg : PullCfg) (st : Ledger) (files : List String) (pages : List RPage),
      (pages.map pageFile).Nodup →
      pullClassesOf { cfg with dryRun := true } st files pages =
        pullClassesOf { cfg with dryRun := false } st files pages) := by
  refine ⟨?_, ?_, ?_, ?_⟩
  · intro cfg st store hdry
    exact pushRun_dry_effs cfg st store hdry
  · intro cfg st files pages hdry e he
    rcases pullRun_dry_effs cfg st files pages hdry e he with ⟨pid, rfl⟩
    exact ⟨rfl, rfl⟩
  · intro cfg st store hnodup hfresh
    have hd := pushFold_dry_classes { cfg with dryRun := true } rfl store (pushInit st)
    have hr := pushFold_classes_vs_init { cfg with dryRun := false } st store.length
      store (pushInit st) (fun i _ => rfl) hnodup
      (fun n _ hN => hfresh n hN) (by simp [pushInit])
    unfold pushClassesOf
    rw [hd, hr]
    rfl
  · intro cfg st files pages hnodup
    unfold pullClassesOf
    exact pullFold_classes_dry_eq cfg pages
      { state := st, files := files, effs := [] }
      { state := st, files := files, effs := [] } []
      rfl (by simp) (by simp) hnodup

/-- Witness for C4. -/
theorem dry_run_reads_only_witness :
    (pushRun { cfgW with dryRun := true } [] storeW).effs = [] ∧
    pushClassesOf { cfgW with dryRun := true } [] storeW =
      pushClassesOf { cfgW with dryRun := false } [] storeW ∧
    pullClassesOf { pullCfgW with dryRun := true } [] [] pagesW =
      pullClassesOf { pullCfgW with dryRun := false } [] [] pagesW :=
  ⟨dry_run_reads_only.1 { cfgW with dryRun := true } [] storeW rfl,
   dry_run_reads_only.2.2.1 cfgW [] storeW (by decide) (by decide),
   dry_run_reads_only.2.2.2 pullCfgW [] [] pagesW (by decide)⟩

/-! ## C6: a second push after a successful push performs no remote call -/

theorem fmGet_fmSet_self (fm : FM) (k v : String) :
    fmGet (fmSet fm k v) k = some v := by
  induction fm with
  | nil => simp [fmSet, fmGet]
  | cons kv rest ih =>
    by_cases h : kv.1 = k
    · simp [fmSet, fmGet, h]
    · simp [fmSet, fmGet, h, ih]

theorem fmGet_fmSet_ne (fm : FM) (k k' v : String) (h : k' ≠ k) :
    fmGet (fmSet fm k' v) k = fmGet fm k := by
  induction fm with
  | nil => simp [fmSet, fmGet, h]
  | cons kv rest ih =>
    by_cases h2 : kv.1 = k'
    · simp only [fmSet, h2, if_true]
      simp [fmGet, h2, h]
    · simp only [fmSet, h2, if_false]
      by_cases h3 : kv.1 = k <;> simp [fmGet, h3, ih]

theorem fmGet_createWriteBack_id (fm : FM) (pid now h : String) :
    fmGet (createWriteBack fm pid now h) "id" = some pid := by
  unfold createWriteBack
  rw [fmGet_fmSet_ne _ _ _ _ (by decide), fmGet_fmSet_ne _ _ _ _ (by decide),
    fmGet_fmSet_ne _ _ _ _ (by decide), fmGet_fmSet_self]

theorem fmGet_pushWriteBack_id (fm : FM) (now h : String) :
    fmGet (pushWriteBack fm now h) "id" = fmGet fm "id" := by
  unfold pushWriteBack
  rw [fmGet_fmSet_ne _ _ _ _ (by decide), fmGet_fmSet_ne _ _ _ _ (by decide)]

theorem pushStep_skip_eq (cfg : PushCfg) (acc : PushAcc) (f : NoteFile)
    (h : pushSkipClass (pushClassify cfg.hash acc.state f) = true) :
    (pushStep cfg acc f).effs = acc.effs ∧
    (pushStep cfg acc f).state = acc.state ∧
    (pushStep cfg acc f).store = acc.store ++ [f] ∧
    (pushStep cfg acc f).created = acc.created := by
  by_cases hid : fmTruthy f.fm "id" = true
  · rcases hlk : lookupEntry acc.state (fmGetD f.fm "id") with _ | e
    · refine ⟨?_, ?_, ?_, ?_⟩ <;> simp [pushStep, hid, hlk]
    · by_cases hCL : cfg.hash f.body = e.localHash
      · refine ⟨?_, ?_, ?_, ?_⟩ <;> simp [pushStep, hid, hlk, hCL]
      · by_cases hLR : e.notionHash = e.localHash
        · exact absurd h (by simp [pushClassify, hid, hlk, hCL, hLR, pushSkipClass])
        · refine ⟨?_, ?_, ?_, ?_⟩ <;> simp [pushStep, hid, hlk, hCL, hLR]
  · exact absurd h (by simp [pushClassify, hid, pushSkipClass])

theorem pushFold_all_skip (cfg : PushCfg) (store : List NoteFile) :
    ∀ acc : PushAcc,
      (∀ f ∈ store, pushSkipClass (pushClassify cfg.hash acc.state f) = true) →
      (pushFoldTrace cfg acc store).1.effs = acc.effs ∧
      (pushFoldTrace cfg acc store).1.state = acc.state ∧
      ∀ c ∈ (pushFoldTrace cfg acc store).2, pushSkipClass c = true := by
  induction store with
  | nil =>
    intro acc _
    exact ⟨rfl, rfl, by intro c hc; exact absurd hc (List.not_mem_nil c)⟩
  | cons f rest ih =>
    intro acc hall
    have hf := hall f (List.mem_cons_self f rest)
    have hstep := pushStep_skip_eq cfg acc f hf
    have hrec := ih (pushStep cfg acc f)
      (by intro g hg
          rw [hstep.2.1]
          exact hall g (List.mem_cons_of_mem f hg))
    refine ⟨hrec.1.trans hstep.1, hrec.2.1.trans hstep.2.1, ?_⟩
    intro c hc
    rcases List.mem_cons.mp hc with rfl | hc'
    · exact hf
    · exact hrec.2.2 c hc'

theorem pushStep_create_eq (cfg : PushCfg) (acc : PushAcc) (f : NoteFile)
    (hdry : cfg.dryRun = false) (hid : fmTruthy f.fm "id" = false) :
    pushStep cfg acc f =
      { state := setEntry acc.state (cfg.idGen acc.created)
          { slug := dropMdExt f.name
            title := if fmTruthy f.fm "title" then fmGetD f.fm "title" else f.name
            notionUpdated := cfg.now
            localHash := cfg.hash f.body
            notionHash := cfg.hash f.body }
        store := acc.store ++
          [{ f with fm := createWriteBack f.fm (cfg.idGen acc.created) cfg.now (cfg.hash f.body) }]
        effs := acc.effs
          ++ createPageEffs (createProps f.fm f.name) (cfg.idGen acc.created) (cfg.m2b f.body)
          ++ [Eff.writeNote f.name
              (createWriteBack f.fm (cfg.idGen acc.created) cfg.now (cfg.hash f.body)) f.body]
        conflicts := acc.conflicts
        created := acc.created + 1 } := by
  simp [pushStep, hid, hdry]

theorem pushStep_push_eq (cfg : PushCfg) (acc : PushAcc) (f : NoteFile)
    (e : LEntry) (hdry : cfg.dryRun = false) (hid : fmTruthy f.fm "id" = true)
    (hlk : lookupEntry acc.state (fmGetD f.fm "id") = some e)
    (hCL : ¬ cfg.hash f.body = e.localHash) (hLR : e.notionHash = e.localHash) :
    (pushStep cfg acc f).state = setEntry acc.state (fmGetD f.fm "id")
      { e with
        localHash := cfg.hash f.body
        notionHash := cfg.hash f.body
        notionUpdated := cfg.now } ∧
    (pushStep cfg acc f).store = acc.store ++
      [{ f with fm := pushWriteBack f.fm cfg.now (cfg.hash f.body) }] ∧
    (pushStep cfg acc f).created = acc.created := by
  refine ⟨?_, ?_, ?_⟩ <;> simp [pushStep, hid, hlk, hCL, hLR, hdry]

/-! The invariant for the second-push theorem: after a successful run,
every file in the written store classifies as a skip against the final
ledger. The induction carries freshness bookkeeping for the ids the
remote assigns to created pages. -/

theorem pushClassify_stable (hash : String → String) (st : Ledger)
    (k : String) (e : LEntry) (f : NoteFile)
    (hk : fmTruthy f.fm "id" = true → fmGetD f.fm "id" ≠ k) :
    pushClassify hash (setEntry st k e) f = pushClassify hash st f :=
  pushClassify_eq_of_lookup hash st (setEntry st k e) f
    (fun hid => lookupEntry_setEntry_ne st (fmGetD f.fm "id") k e (Ne.symm (hk hid)))

theorem mem_truthyIds_self (f : NoteFile) (rest : List NoteFile)
    (hid : fmTruthy f.fm "id" = true) :
    fmGetD f.fm "id" ∈ truthyIds (f :: rest) := by
  rw [truthyIds_cons_true f rest hid]
  exact List.mem_cons_self _ _

theorem fmTruthy_createWriteBack_id (fm : FM) (pid now h : String)
    (hpid : pid ≠ "") : fmTruthy (createWriteBack fm pid now h) "id" = true := by
  simp [fmTruthy, fmGet_createWriteBack_id, hpid]

theorem fmGetD_createWriteBack_id (fm : FM) (pid now h : String) :
    fmGetD (createWriteBack fm pid now h) "id" = pid := by
  simp [fmGetD, fmGet_createWriteBack_id]

theorem fmTruthy_pushWriteBack_id (fm : FM) (now h : String) :
    fmTruthy (pushWriteBack fm now h) "id" = fmTruthy fm "id" := by
  simp [fmTruthy, fmGet_pushWriteBack_id]

theorem fmGetD_pushWriteBack_id (fm : FM) (now h : String) :
    fmGetD (pushWriteBack fm now h) "id" = fmGetD fm "id" := by
  simp [fmGetD, fmGet_pushWriteBack_id]

theorem pushFold_good (cfg : PushCfg) (hdry : cfg.dryRun = false) (N : Nat)
    (hinj : ∀ m n, m < n → n < N → cfg.idGen m ≠ cfg.idGen n) :
    ∀ (rest : List NoteFile) (acc : PushAcc),
      (∀ g ∈ acc.store, pushSkipClass (pushClassify cfg.hash acc.state g) = true) →
      (truthyIds rest).Nodup →
      (∀ g ∈ acc.store, fmTruthy g.fm "id" = true →
        fmGetD g.fm "id" ∉ truthyIds rest) →
      (∀ g ∈ acc.store, fmTruthy g.fm "id" = true →
        ∀ m, acc.created ≤ m → m < N → fmGetD g.fm "id" ≠ cfg.idGen m) →
      (∀ n, acc.created ≤ n → n < N →
        cfg.idGen n ∉ truthyIds rest ∧ cfg.idGen n ≠ "") →
      acc.created + rest.length ≤ N →
      ∀ g ∈ (pushFoldTrace cfg acc rest).1.store,
        pushSkipClass (pushClassify cfg.hash (pushFoldTrace cfg acc rest).1.state g) = true := by
  intro rest
  induction rest with
  | nil =>
    intro acc h1 _ _ _ _ _ g hg
    exact h1 g hg
  | cons f rest' ih =>
    intro acc h1 h2 h3 h4 h5 h6
    simp only [List.length_cons] at h6
    have hsub : ∀ i ∈ truthyIds rest', i ∈ truthyIds (f :: rest') :=
      fun i hi => mem_truthyIds_tail f rest' hi
    show ∀ g ∈ (pushFoldTrace cfg (pushStep cfg acc f) rest').1.store, _
    by_cases hid : fmTruthy f.fm "id" = true
    · have h2' : (truthyIds rest').Nodup := by
        have h := h2; rw [truthyIds_cons_true f rest' hid] at h; exact h.of_cons
      have hheadout : fmGetD f.fm "id" ∉ truthyIds rest' := by
        have h := h2; rw [truthyIds_cons_true f rest' hid] at h
        exact (List.nodup_cons.mp h).1
      rcases hlk : lookupEntry acc.state (fmGetD f.fm "id") with _ | e
      · -- no ledger entry: Orphaned
        have hcls : pushClassify cfg.hash acc.state f = .orphaned := by
          simp [pushClassify, hid, hlk]
        have hskip := pushStep_skip_eq cfg acc f (by rw [hcls]; rfl)
        refine ih (pushStep cfg acc f) ?_ h2' ?_ ?_ ?_ ?_
        · intro g hg
          rw [hskip.2.1]
          rw [hskip.2.2.1] at hg
          rcases List.mem_append.mp hg with hg' | hg'
          · exact h1 g hg'
          · rw [List.mem_singleton.mp hg', hcls]; rfl
        · intro g hg htr
          rw [hskip.2.2.1] at hg
          rcases List.mem_append.mp hg with hg' | hg'
          · exact fun hm => h3 g hg' htr (hsub _ hm)
          · rw [List.mem_singleton.mp hg'] at htr ⊢
            exact hheadout
        · intro g hg htr m hm hN
          rw [hskip.2.2.2] at hm
          rw [hskip.2.2.1] at hg
          rcases List.mem_append.mp hg with hg' | hg'
          · exact h4 g hg' htr m hm hN
          · rw [List.mem_singleton.mp hg'] at htr ⊢
            intro heq
            exact (h5 m hm hN).1 (heq ▸ mem_truthyIds_self f rest' hid)
        · intro n hn hN
          rw [hskip.2.2.2] at hn
          exact ⟨fun hm => (h5 n hn hN).1 (hsub _ hm), (h5 n hn hN).2⟩
        · rw [hskip.2.2.2]; omega
      · -- ledger entry exists
        by_cases hCL : cfg.hash f.body = e.localHash
        · have hcls : pushClassify cfg.hash acc.state f = .unchanged := by
            simp [pushClassify, hid, hlk, hCL]
          have hskip := pushStep_skip_eq cfg acc f (by rw [hcls]; rfl)
          refine ih (pushStep cfg acc f) ?_ h2' ?_ ?_ ?_ ?_
          · intro g hg
            rw [hskip.2.1]
            rw [hskip.2.2.1] at hg
            rcases List.mem_append.mp hg with hg' | hg'
            · exact h1 g hg'
            · rw [List.mem_singleton.mp hg', hcls]; rfl
          · intro g hg htr
            rw [hskip.2.2.1] at hg
            rcases List.mem_append.mp hg with hg' | hg'
            · exact fun hm => h3 g hg' htr (hsub _ hm)
            · rw [List.mem_singleton.mp hg'] at htr ⊢
              exact hheadout
          · intro g hg htr m hm hN
            rw [hskip.2.2.2] at hm
            rw [hskip.2.2.1] at hg
            rcases List.mem_append.mp hg with hg' | hg'
            · exact h4 g hg' htr m hm hN
            · rw [List.mem_singleton.mp hg'] at htr ⊢
              intro heq
              exact (h5 m hm hN).1 (heq ▸ mem_truthyIds_self f rest' hid)
          · intro n hn hN
            rw [hskip.2.2.2] at hn
            exact ⟨fun hm => (h5 n hn hN).1 (hsub _ hm), (h5 n hn hN).2⟩
          · rw [hskip.2.2.2]; omega
        · by_cases hLR : e.notionHash = e.localHash
          · -- the OnlyLocalChanged push path
            have hpush := pushStep_push_eq cfg acc f e hdry hid hlk hCL hLR
            refine ih (pushStep cfg acc f) ?_ h2' ?_ ?_ ?_ ?_
            · intro g hg
              rw [hpush.1, hpush.2.1] at *
              rcases List.mem_append.mp hg with hg' | hg'
              · rw [pushClassify_stable cfg.hash acc.state _ _ g
                  (fun htr heq => h3 g hg' htr (heq ▸ mem_truthyIds_self f rest' hid))]
                exact h1 g hg'
              · rw [List.mem_singleton.mp hg']
                have : pushClassify cfg.hash
                    (setEntry acc.state (fmGetD f.fm "id")
                      { e with
                        localHash := cfg.hash f.body
                        notionHash := cfg.hash f.body
                        notionUpdated := cfg.now })
                    { f with fm := pushWriteBack f.fm cfg.now (cfg.hash f.body) }
                    = .unchanged := by
                  unfold pushClassify
                  rw [fmTruthy_pushWriteBack_id, hid, fmGetD_pushWriteBack_id,
                    lookupEntry_setEntry_self]
                  simp
                rw [this]; rfl
            · intro g hg htr
              rw [hpush.2.1] at hg
              rcases List.mem_append.mp hg with hg' | hg'
              · exact fun hm => h3 g hg' htr (hsub _ hm)
              · rw [List.mem_singleton.mp hg'] at htr ⊢
                rw [fmGetD_pushWriteBack_id]
                exact hheadout
            · intro g hg htr m hm hN
              rw [hpush.2.2] at hm
              rw [hpush.2.1] at hg
              rcases List.mem_append.mp hg with hg' | hg'
              · exact h4 g hg' htr m hm hN
              · rw [List.mem_singleton.mp hg'] at htr ⊢
                rw [fmGetD_pushWriteBack_id]
                intro heq
                exact (h5 m hm hN).1 (heq ▸ mem_truthyIds_self f rest' hid)
            · intro n hn hN
              rw [hpush.2.2] at hn
              exact ⟨fun hm => (h5 n hn hN).1 (hsub _ hm), (h5 n hn hN).2⟩
            · rw [hpush.2.2]; omega
          · have hcls : pushClassify cfg.hash acc.state f = .conflict := by
              simp [pushClassify, hid, hlk, hCL, hLR]
            have hskip := pushStep_skip_eq cfg acc f (by rw [hcls]; rfl)
            refine ih (pushStep cfg acc f) ?_ h2' ?_ ?_ ?_ ?_
            · intro g hg
              rw [hskip.2.1]
              rw [hskip.2.2.1] at hg
              rcases List.mem_append.mp hg with hg' | hg'
              · exact h1 g hg'
              · rw [List.mem_singleton.mp hg', hcls]; rfl
            · intro g hg htr
              rw [hskip.2.2.1] at hg
              rcases List.mem_append.mp hg with hg' | hg'
              · exact fun hm => h3 g hg' htr (hsub _ hm)
              · rw [List.mem_singleton.mp hg'] at htr ⊢
                exact hheadout
            · intro g hg htr m hm hN
              rw [hskip.2.2.2] at hm
              rw [hskip.2.2.1] at hg
              rcases List.mem_append.mp hg with hg' | hg'
              · exact h4 g hg' htr m hm hN
              · rw [List.mem_singleton.mp hg'] at htr ⊢
                intro heq
                exact (h5 m hm hN).1 (heq ▸ mem_truthyIds_self f rest' hid)
            · intro n hn hN
              rw [hskip.2.2.2] at hn
              exact ⟨fun hm => (h5 n hn hN).1 (hsub _ hm), (h5 n hn hN).2⟩
            · rw [hskip.2.2.2]; omega
    · -- the Create path
      have hidf : fmTruthy f.fm "id" = false := by simpa using hid
      have hcreated : acc.created < N := by omega
      have htids : truthyIds (f :: rest') = truthyIds rest' :=
        truthyIds_cons_false f rest' hidf
      have hcr := pushStep_create_eq cfg acc f hdry hidf
      refine ih (pushStep cfg acc f) ?_ ?_ ?_ ?_ ?_ ?_
      · intro g hg
        rw [hcr] at hg ⊢
        simp only at hg ⊢
        rcases List.mem_append.mp hg with hg' | hg'
        · rw [pushClassify_stable cfg.hash acc.state _ _ g
            (fun htr => h4 g hg' htr acc.created (Nat.le_refl _) hcreated)]
          exact h1 g hg'
        · rw [List.mem_singleton.mp hg']
          have : pushClassify cfg.hash
              (setEntry acc.state (cfg.idGen acc.created)
                { slug := dropMdExt f.name
                  title := if fmTruthy f.fm "title" then fmGetD f.fm "title" else f.name
                  notionUpdated := cfg.now
                  localHash := cfg.hash f.body
                  notionHash := cfg.hash f.body })
              { f with fm := createWriteBack f.fm (cfg.idGen acc.created) cfg.now (cfg.hash f.body) }
              = .unchanged := by
            unfold pushClassify
            rw [fmTruthy_createWriteBack_id _ _ _ _
                (h5 acc.created (Nat.le_refl _) hcreated).2,
              fmGetD_createWriteBack_id, lookupEntry_setEntry_self]
            simp
          rw [this]; rfl
      · have h := h2; rwa [htids] at h
      · intro g hg htr
        rw [hcr] at hg
        simp only at hg
        rcases List.mem_append.mp hg with hg' | hg'
        · exact fun hm => h3 g hg' htr (htids ▸ hm)
        · rw [List.mem_singleton.mp hg'] at htr ⊢
          rw [fmGetD_createWriteBack_id]
          exact fun hm => (h5 acc.created (Nat.le_refl _) hcreated).1 (htids ▸ hm)
      · intro g hg htr m hm hN
        rw [hcr] at hm hg
        simp only at hm hg
        rcases List.mem_append.mp hg with hg' | hg'
        · exact h4 g hg' htr m (by omega) hN
        · rw [List.mem_singleton.mp hg'] at htr ⊢
          rw [fmGetD_createWriteBack_id]
          exact hinj acc.created m (by omega) hN
      · intro n hn hN
        rw [hcr] at hn
        simp only at hn
        refine ⟨fun hm => (h5 n (by omega) hN).1 (htids ▸ hm), (h5 n (by omega) hN).2⟩
      · rw [hcr]
        simp only
        omega

theorem pushRun_state_store (cfg : PushCfg) (st : Ledger)
    (store : List NoteFile) :
    (pushRun cfg st store).state = (pushFoldTrace cfg (pushInit st) store).1.state ∧
    (pushRun cfg st store).store = (pushFoldTrace cfg (pushInit st) store).1.store := by
  constructor <;>
    (by_cases hdry : cfg.dryRun = true <;>
      by_cases hc : (pushFoldTrace cfg (pushInit st) store).1.conflicts = [] <;>
        simp [pushRun, hdry, hc])

theorem pushRun_all_skip_effs (cfg : PushCfg) (st : Ledger)
    (store : List NoteFile)
    (h : ∀ f ∈ store, pushSkipClass (pushClassify cfg.hash st f) = true) :
    (∀ e ∈ (pushRun cfg st store).effs, e.isRemoteCall = false) ∧
    (∀ c ∈ pushClassesOf cfg st store, pushSkipClass c = true) := by
  have hfold := pushFold_all_skip cfg store (pushInit st) h
  have heffs : (pushRun cfg st store).effs =
      (if (pushFoldTrace cfg (pushInit st) store).1.conflicts ≠ [] && !cfg.dryRun
        then [Eff.writeConflictsFile] else []) ++
      (if cfg.dryRun then [] else [Eff.writeLedgerFile]) := by
    unfold pushRun
    split <;> split <;> simp_all [pushInit]
  constructor
  · intro e he
    rw [heffs] at he
    rcases List.mem_append.mp he with h' | h' <;> split at h' <;>
      first
        | exact absurd h' (List.not_mem_nil e)
        | (rw [List.mem_singleton.mp h']; rfl)
  · exact hfold.2.2

/-- C6 (amended): after a successful (non-dry) push over a store whose
tracked remoteIds are duplicate-free and whose remote-assigned create
ids are fresh, nonempty and distinct, a second push performs zero
remote calls of any kind: every file is classified Unchanged, Orphaned
or Conflict and skipped, and the second run's effect trace contains
only local report/ledger writes. -/
theorem push_second_run_no_remote_calls
    (cfg : PushCfg) (st : Ledger) (store : List NoteFile)
    (hdry : cfg.dryRun = false)
    (hnodup : (truthyIds store).Nodup)
    (hfresh : ∀ n, n < store.length →
      cfg.idGen n ∉ truthyIds store ∧ cfg.idGen n ≠ "")
    (hinj : ∀ n, n < store.length → ∀ m, m < n → cfg.idGen m ≠ cfg.idGen n) :
    (∀ e ∈ (pushRun cfg (pushRun cfg st store).state
        (pushRun cfg st store).store).effs, e.isRemoteCall = false) ∧
    (∀ c ∈ pushClassesOf cfg (pushRun cfg st store).state
        (pushRun cfg st store).store, pushSkipClass c = true) := by
  have hgood := pushFold_good cfg hdry store.length
    (fun m n hmn hnN => hinj n hnN m hmn) store (pushInit st)
    (fun g hg => absurd hg (List.not_mem_nil g))
    hnodup
    (fun g hg => absurd hg (List.not_mem_nil g))
    (fun g hg => absurd hg (List.not_mem_nil g))
    (fun n _ hN => hfresh n hN)
    (by simp [pushInit])
  have hproj := pushRun_state_store cfg st store
  refine pushRun_all_skip_effs cfg _ _ ?_
  intro f hf
  rw [hproj.1]
  apply hgood
  rw [← hproj.2]
  exact hf

/-- Witness for the amended C6. -/
theorem push_second_run_no_remote_calls_witness :
    (∀ e ∈ (pushRun cfgW (pushRun cfgW ledgerConflictW storeConflictW).state
        (pushRun cfgW ledgerConflictW storeConflictW).store).effs,
      e.isRemoteCall = false) ∧
    (∀ c ∈ pushClassesOf cfgW (pushRun cfgW ledgerConflictW storeConflictW).state
        (pushRun cfgW ledgerConflictW storeConflictW).store,
      pushSkipClass c = true) :=
  push_second_run_no_remote_calls cfgW ledgerConflictW storeConflictW
    rfl (by decide) (by decide) (by decide)

/-- Counterexample to C6 as stated: with one conflicted file, the first
(successful, non-dry) push completes, yet the second push classifies
that file Conflict — not Unchanged and not Orphaned — so the claim's
parenthetical "every file is classified Unchanged or Orphaned" fails
(the second run still performs zero remote mutations). -/
theorem push_second_run_conflict_counterexample :
    pushClassesOf cfgW (pushRun cfgW ledgerConflictW storeConflictW).state
        (pushRun cfgW ledgerConflictW storeConflictW).store = [.conflict] ∧
    PushClass.conflict ≠ PushClass.unchanged ∧
    PushClass.conflict ≠ PushClass.orphaned := by
  refine ⟨by decide, by decide, by decide⟩

/-! ## C9: store invariants after pull and push -/

theorem collapseAux_chars (b : Bool) (cs : List Char) :
    ∀ c ∈ collapseAux b cs, isSlugKeep c = true ∨ c = '-' := by
  induction cs generalizing b with
  | nil => intro c hc; exact absurd hc (List.not_mem_nil c)
  | cons d rest ih =>
    intro c hc
    unfold collapseAux at hc
    by_cases hd : isSlugKeep d = true
    · rw [if_pos hd] at hc
      rcases List.mem_cons.mp hc with rfl | hc'
      · exact Or.inl hd
      · exact ih false c hc'
    · rw [if_neg hd] at hc
      by_cases hb : b = true
      · rw [if_pos hb] at hc
        exact ih true c hc
      · rw [if_neg hb] at hc
        rcases List.mem_cons.mp hc with rfl | hc'
        · exact Or.inr rfl
        · exact ih true c hc'

theorem dropLeadDash_subset (cs : List Char) :
    ∀ c ∈ dropLeadDash cs, c ∈ cs := by
  intro c hc
  unfold dropLeadDash at hc
  split at hc
  · exact List.mem_cons_of_mem _ hc
  · exact hc

theorem dropTrailDash_subset (cs : List Char) :
    ∀ c ∈ dropTrailDash cs, c ∈ cs := by
  intro c hc
  unfold dropTrailDash at hc
  split at hc
  · exact List.dropLast_subset _ hc
  · exact hc

theorem stripDashes_subset (cs : List Char) :
    ∀ c ∈ stripDashes cs, c ∈ cs :=
  fun c hc => dropLeadDash_subset cs c (dropTrailDash_subset _ c hc)

theorem slugify_length_le (t : String) : (slugify t).length ≤ 60 := by
  show (((stripDashes (collapseBad (t.data.map Char.toLower))).take 60).asString).length ≤ 60
  have : (((stripDashes (collapseBad (t.data.map Char.toLower))).take 60).asString).length
      = ((stripDashes (collapseBad (t.data.map Char.toLower))).take 60).length := rfl
  rw [this, List.length_take]
  exact Nat.min_le_left _ _

theorem slugify_chars (t : String) :
    ∀ c ∈ (slugify t).data, isSlugKeep c = true ∨ c = '-' := by
  intro c hc
  have hc' : c ∈ (stripDashes (collapseBad (t.data.map Char.toLower))).take 60 := hc
  have hc2 := List.take_subset 60 _ hc'
  exact collapseAux_chars false _ c (stripDashes_subset _ c hc2)

theorem keys_setEntry (st : Ledger) (k : String) (e : LEntry) :
    (setEntry st k e).map Prod.fst =
      if k ∈ st.map Prod.fst then st.map Prod.fst else st.map Prod.fst ++ [k] := by
  induction st with
  | nil => simp [setEntry]
  | cons kv rest ih =>
    by_cases h : kv.1 = k
    · simp [setEntry, h]
    · simp only [setEntry, h, if_false, List.map_cons, ih]
      by_cases h2 : k ∈ rest.map Prod.fst <;>
        simp [h2, Ne.symm h, List.mem_cons]

theorem nodup_setEntry (st : Ledger) (k : String) (e : LEntry)
    (h : (st.map Prod.fst).Nodup) :
    ((setEntry st k e).map Prod.fst).Nodup := by
  rw [keys_setEntry]
  split
  · exact h
  · rename_i hnot
    simp [List.nodup_append, h, hnot]

theorem pullFold_nodup (cfg : PullCfg) (pages : List RPage) :
    ∀ acc : PullAcc, (acc.state.map Prod.fst).Nodup →
      ((pullFoldTrace cfg acc pages).1.state.map Prod.fst).Nodup := by
  induction pages with
  | nil => intro acc h; exact h
  | cons p rest ih =>
    intro acc h
    refine ih (pullStep cfg acc p) ?_
    by_cases hs : pullSkips acc.state acc.files p = true
    · rw [pullStep_of_skip cfg acc p hs]; exact h
    · rw [(pullStep_pull cfg acc p hs).1]
      exact nodup_setEntry _ _ _ h

theorem pushFold_nodup (cfg : PushCfg) (store : List NoteFile) :
    ∀ acc : PushAcc, (acc.state.map Prod.fst).Nodup →
      ((pushFoldTrace cfg acc store).1.state.map Prod.fst).Nodup := by
  induction store with
  | nil => intro acc h; exact h
  | cons f rest ih =>
    intro acc h
    refine ih (pushStep cfg acc f) ?_
    rcases pushStep_state_shape cfg acc f with ⟨hst, _⟩ | ⟨_, _, e, hst⟩ | ⟨_, _, e, hst⟩ <;>
      rw [hst]
    · exact h
    · exact nodup_setEntry _ _ _ h
    · exact nodup_setEntry _ _ _ h

/-- Counterexample to C9 as stated: two remote documents with distinct
remoteIds (`"q1"`, `"q2"`) and distinct titles (`"a!"`, `"a?"`) slugify
to the same slug `"a"`, so after one pull the local store has two
tracked documents occupying the same slug/file — slug uniqueness is
not maintained by the code. -/
theorem slug_uniqueness_counterexample :
    slugify "a!" = "a" ∧ slugify "a?" = "a" ∧
    (lookupEntry (pullRun pullCfgW [] [] pagesClashW).state "q1").map LEntry.slug
      = some "a" ∧
    (lookupEntry (pullRun pullCfgW [] [] pagesClashW).state "q2").map LEntry.slug
      = some "a" ∧
    ("q1" : String) ≠ "q2" := by
  refine ⟨by decide, by decide, by decide, by decide, by decide⟩

/-- C9 (amended): after every pull and push the remoteId remains unique
in the ledger (the key list of an initially duplicate-free ledger stays
duplicate-free), and the slug derived from any title is
filesystem-safe (lower-case alphanumerics and dashes only) and at most
60 characters. Slug uniqueness in the local store, however, is not
maintained: distinct titles may collapse to one slug (see the
counterexample). -/
theorem store_invariants_amended :
    (∀ t : String, (slugify t).length ≤ 60) ∧
    (∀ t : String, ∀ c ∈ (slugify t).data, isSlugKeep c = true ∨ c = '-') ∧
    (∀ (cfg : PullCfg) (st : Ledger) (files : List String) (pages : List RPage),
      (st.map Prod.fst).Nodup →
      ((pullRun cfg st files pages).state.map Prod.fst).Nodup) ∧
    (∀ (cfg : PushCfg) (st : Ledger) (store : List NoteFile),
      (st.map Prod.fst).Nodup →
      ((pushRun cfg st store).state.map Prod.fst).Nodup) := by
  refine ⟨slugify_length_le, slugify_chars, ?_, ?_⟩
  · intro cfg st files pages h
    rw [pullRun_state_eq]
    exact pullFold_nodup cfg pages { state := st, files := files, effs := [] } h
  · intro cfg st store h
    rw [(pushRun_state_store cfg st store).1]
    exact pushFold_nodup cfg store (pushInit st) h

/-- Witness for the amended C9. -/
theorem store_invariants_amended_witness :
    (slugify "Hello, World!").length ≤ 60 ∧
    ((pullRun pullCfgW [] [] pagesW).state.map Prod.fst).Nodup ∧
    ((pushRun cfgW [] storeW).state.map Prod.fst).Nodup :=
  ⟨store_invariants_amended.1 "Hello, World!",
   store_invariants_amended.2.2.1 pullCfgW [] [] pagesW (by decide),
   store_invariants_amended.2.2.2 cfgW [] storeW (by decide)⟩

/-! ## C10: the note-file round trip -/

theorem findDelim_cons_no_match (c : Char) (cs : List Char)
    (h : leadsWith delimPat (c :: cs) = false) :
    findDelim (c :: cs) = (findDelim cs).map (fun p => (c :: p.1, p.2)) := by
  rw [findDelim, if_neg (by rw [h]; exact Bool.false_ne_true)]
  rcases hfd : findDelim cs with _ | ⟨a, b⟩ <;> simp [hfd]

theorem findDelim_cons_not_nl (c : Char) (cs : List Char) (h : c ≠ '\n') :
    findDelim (c :: cs) = (findDelim cs).map (fun p => (c :: p.1, p.2)) := by
  refine findDelim_cons_no_match c cs ?_
  have heval : leadsWith delimPat (c :: cs)
      = (('\n' == c) && leadsWith ['-', '-', '-', '\n'] cs) := rfl
  rw [heval, beq_eq_false_iff_ne.mpr (Ne.symm h)]
  rfl

theorem findDelim_at (cs : List Char) :
    findDelim ('\n' :: '-' :: '-' :: '-' :: '\n' :: cs) = some ([], cs) := by
  have hcond : leadsWith delimPat ('\n' :: '-' :: '-' :: '-' :: '\n' :: cs) = true := by
    simp [leadsWith, delimPat]
  rw [findDelim, if_pos hcond]
  rfl

theorem findDelim_skip (cs : List Char) (ds : List Char)
    (h : '\n' ∉ cs) :
    findDelim (cs ++ ds) = (findDelim ds).map (fun p => (cs ++ p.1, p.2)) := by
  induction cs with
  | nil =>
    rcases hfd : findDelim ds with _ | ⟨a, b⟩ <;> simp [hfd]
  | cons c rest ih =>
    have hc : c ≠ '\n' := fun hcc => h (hcc ▸ List.mem_cons_self c rest)
    rw [List.cons_append, findDelim_cons_not_nl c _ hc,
      ih (fun hm => h (List.mem_cons_of_mem c hm))]
    rcases hfd : findDelim ds with _ | ⟨a, b⟩ <;> simp [hfd]

theorem leadsWith_dash_false (l : List Char) (zs : List Char)
    (h1 : '\n' ∉ l) (h2 : l ≠ ['-', '-', '-']) :
    leadsWith ['-', '-', '-', '\n'] (l ++ '\n' :: zs) = false := by
  rcases l with _ | ⟨a, _ | ⟨b, _ | ⟨c, _ | ⟨d, rest⟩⟩⟩⟩
  · rfl
  · by_cases ha : a = '-'
    · subst ha; rfl
    · simp [leadsWith, beq_eq_false_iff_ne.mpr (Ne.symm ha)]
  · by_cases ha : a = '-'
    · subst ha
      by_cases hb : b = '-'
      · subst hb; rfl
      · simp [leadsWith, beq_eq_false_iff_ne.mpr (Ne.symm hb)]
    · simp [leadsWith, beq_eq_false_iff_ne.mpr (Ne.symm ha)]
  · by_cases ha : a = '-'
    · subst ha
      by_cases hb : b = '-'
      · subst hb
        by_cases hc : c = '-'
        · subst hc; exact absurd rfl h2
        · simp [leadsWith, beq_eq_false_iff_ne.mpr (Ne.symm hc)]
      · simp [leadsWith, beq_eq_false_iff_ne.mpr (Ne.symm hb)]
    · simp [leadsWith, beq_eq_false_iff_ne.mpr (Ne.symm ha)]
  · have hd : d ≠ '\n' := fun hdd => h1 (by
      rw [hdd]
      exact List.mem_cons_of_mem a (List.mem_cons_of_mem b
        (List.mem_cons_of_mem c (List.mem_cons_self '\n' rest))))
    have hd' : ('\n' == d) = false := beq_eq_false_iff_ne.mpr (Ne.symm hd)
    simp [leadsWith, hd']

theorem findDelim_yaml (lines : List (List Char)) (tail : List Char)
    (h : ∀ l ∈ lines, '\n' ∉ l ∧ l ≠ ['-', '-', '-']) :
    findDelim (joinWith '\n' lines ++ '\n' :: '-' :: '-' :: '-' :: '\n' :: tail)
      = some (joinWith '\n' lines, tail) := by
  induction lines with
  | nil =>
    show findDelim ('\n' :: '-' :: '-' :: '-' :: '\n' :: tail) = some ([], tail)
    exact findDelim_at tail
  | cons l rest ih =>
    rcases rest with _ | ⟨l', rest'⟩
    · show findDelim (l ++ '\n' :: '-' :: '-' :: '-' :: '\n' :: tail) = some (l, tail)
      rw [findDelim_skip l _ (h l (List.mem_cons_self l [])).1, findDelim_at]
      simp
    · have hl := h l (List.mem_cons_self l _)
      have hl' := h l' (List.mem_cons_of_mem l (List.mem_cons_self l' rest'))
      have hrest : ∀ m ∈ l' :: rest', '\n' ∉ m ∧ m ≠ ['-', '-', '-'] :=
        fun m hm => h m (List.mem_cons_of_mem l hm)
      show findDelim ((l ++ '\n' :: joinWith '\n' (l' :: rest'))
          ++ '\n' :: '-' :: '-' :: '-' :: '\n' :: tail)
        = some (l ++ '\n' :: joinWith '\n' (l' :: rest'), tail)
      rw [List.append_assoc, List.cons_append,
        findDelim_skip l _ hl.1]
      have hrest2 : joinWith '\n' (l' :: rest') ++ '\n' :: '-' :: '-' :: '-' :: '\n' :: tail
          = l' ++ '\n' :: (match rest' with
            | [] => '-' :: '-' :: '-' :: '\n' :: tail
            | l'' :: rest'' =>
              joinWith '\n' (l'' :: rest'') ++ '\n' :: '-' :: '-' :: '-' :: '\n' :: tail) := by
        rcases rest' with _ | ⟨l'', rest''⟩
        · rfl
        · show (l' ++ '\n' :: joinWith '\n' (l'' :: rest'')) ++ _ = _
          rw [List.append_assoc]
          rfl
      have hnomatch : leadsWith delimPat
          ('\n' :: (joinWith '\n' (l' :: rest') ++ '\n' :: '-' :: '-' :: '-' :: '\n' :: tail))
          = false := by
        rw [hrest2]
        show (('\n' == '\n') &&
          leadsWith ['-', '-', '-', '\n'] (l' ++ '\n' :: _)) = false
        rw [leadsWith_dash_false l' _ hl'.1 hl'.2]
        simp
      rw [findDelim_cons_no_match _ _ hnomatch, ih hrest]
      rfl

theorem splitOnChar_cons (sep c : Char) (rest : List Char) :
    splitOnChar sep (c :: rest) =
      if c = sep then ([], (splitOnChar sep rest).1 :: (splitOnChar sep rest).2)
      else (c :: (splitOnChar sep rest).1, (splitOnChar sep rest).2) := by
  show (if c = sep then _ else _) = _
  split <;> rfl

theorem splitOnChar_no_sep (sep : Char) (cs : List Char) (h : sep ∉ cs) :
    splitOnChar sep cs = (cs, []) := by
  induction cs with
  | nil => rfl
  | cons c rest ih =>
    have hc : ¬ c = sep := fun hcc => h (hcc ▸ List.mem_cons_self c rest)
    rw [splitOnChar_cons, if_neg hc, ih (fun hm => h (List.mem_cons_of_mem c hm))]

theorem splitOnChar_append (sep : Char) (k tail : List Char) (h : sep ∉ k) :
    splitOnChar sep (k ++ sep :: tail) =
      (k, (splitOnChar sep tail).1 :: (splitOnChar sep tail).2) := by
  induction k with
  | nil =>
    rw [List.nil_append, splitOnChar_cons, if_pos rfl]
  | cons c rest ih =>
    have hc : ¬ c = sep := fun hcc => h (hcc ▸ List.mem_cons_self c rest)
    rw [List.cons_append, splitOnChar_cons, if_neg hc,
      ih (fun hm => h (List.mem_cons_of_mem c hm))]

theorem joinWith_cons_head (sep c : Char) (l : List Char)
    (ls : List (List Char)) :
    joinWith sep ((c :: l) :: ls) = c :: joinWith sep (l :: ls) := by
  rcases ls with _ | ⟨l', ls'⟩ <;> rfl

theorem joinWith_splitOnChar (sep : Char) (cs : List Char) :
    joinWith sep ((splitOnChar sep cs).1 :: (splitOnChar sep cs).2) = cs := by
  induction cs with
  | nil => rfl
  | cons c rest ih =>
    by_cases hc : c = sep
    · subst hc
      rw [splitOnChar_cons, if_pos rfl]
      show [] ++ c :: joinWith c ((splitOnChar c rest).1 :: (splitOnChar c rest).2)
        = c :: rest
      rw [List.nil_append, ih]
    · rw [splitOnChar_cons, if_neg hc]
      show joinWith sep ((c :: (splitOnChar sep rest).1) :: (splitOnChar sep rest).2)
        = c :: rest
      rw [joinWith_cons_head, ih]

theorem trimL_cons_ws (x : Char) (cs : List Char) (hx : isWsChar x = true) :
    trimL (x :: cs) = trimL cs := by
  unfold trimL
  rw [List.dropWhile_cons, if_pos hx]

theorem dropTrailWs_append_nl (xs : List Char) :
    dropTrailWs (xs ++ ['\n']) = dropTrailWs xs := by
  unfold dropTrailWs
  have h : (xs ++ ['\n']).reverse = '\n' :: xs.reverse := by simp
  rw [h, List.dropWhile_cons, if_pos (by decide)]

theorem trimL_append_nl (xs : List Char) : trimL (xs ++ ['\n']) = trimL xs := by
  induction xs with
  | nil => rfl
  | cons x rest ih =>
    by_cases hx : isWsChar x = true
    · rw [List.cons_append, trimL_cons_ws x _ hx, trimL_cons_ws x _ hx, ih]
    · have hx' : isWsChar x = false := by simpa using hx
      have h1 : trimL (x :: (rest ++ ['\n'])) = dropTrailWs (x :: (rest ++ ['\n'])) := by
        unfold trimL
        rw [List.dropWhile_cons, if_neg (by simp [hx'])]
      have h2 : trimL (x :: rest) = dropTrailWs (x :: rest) := by
        unfold trimL
        rw [List.dropWhile_cons, if_neg (by simp [hx'])]
      rw [List.cons_append, h1, h2, show x :: (rest ++ ['\n']) = (x :: rest) ++ ['\n'] from rfl,
        dropTrailWs_append_nl]

theorem trimL_of_trimmed (v : List Char) (hlead : v.dropWhile isWsChar = v)
    (htrail : dropTrailWs v = v) : trimL v = v := by
  unfold trimL
  rw [hlead, htrail]

theorem cfmSet_fresh (acc : List (List Char × List Char)) (k v : List Char)
    (h : k ∉ acc.map Prod.fst) : cfmSet acc k v = acc ++ [(k, v)] := by
  induction acc with
  | nil => rfl
  | cons kv rest ih =>
    have hk : ¬ kv.1 = k := fun hkk =>
      h (hkk ▸ List.mem_map.mpr ⟨kv, List.mem_cons_self kv rest, rfl⟩)
    unfold cfmSet
    rw [if_neg hk, ih (fun hm => h (List.mem_cons_of_mem _ hm))]
    rfl

theorem pfmStep_fmLine (acc : List (List Char × List Char))
    (k v : List Char) (hk0 : k ≠ []) (hkc : ':' ∉ k)
    (hklead : k.dropWhile isWsChar = k) (hktrail : dropTrailWs k = k)
    (hvlead : v.dropWhile isWsChar = v) (hvtrail : dropTrailWs v = v) :
    pfmStep acc (fmLine (k, v)) = cfmSet acc k v := by
  have hsplit : splitOnChar ':' (fmLine (k, v)) =
      (k, (splitOnChar ':' (' ' :: v)).1 :: (splitOnChar ':' (' ' :: v)).2) :=
    splitOnChar_append ':' k (' ' :: v) hkc
  unfold pfmStep
  rw [hsplit]
  have hne : k ≠ [] ∧
      ((splitOnChar ':' (' ' :: v)).1 :: (splitOnChar ':' (' ' :: v)).2 :
        List (List Char)) ≠ [] := ⟨hk0, List.cons_ne_nil _ _⟩
  rw [if_pos hne]
  rw [joinWith_splitOnChar ':' (' ' :: v), trimL_of_trimmed k hklead hktrail,
    trimL_cons_ws ' ' v (by decide), trimL_of_trimmed v hvlead hvtrail]

theorem parseFM_build (fm : List (List Char × List Char)) :
    ∀ acc : List (List Char × List Char),
      (∀ kv ∈ fm, kv.1 ≠ [] ∧ ':' ∉ kv.1 ∧
        kv.1.dropWhile isWsChar = kv.1 ∧ dropTrailWs kv.1 = kv.1 ∧
        kv.2.dropWhile isWsChar = kv.2 ∧ dropTrailWs kv.2 = kv.2) →
      (fm.map Prod.fst).Nodup →
      (∀ kv ∈ fm, kv.1 ∉ acc.map Prod.fst) →
      List.foldl pfmStep acc (fm.map fmLine) = acc ++ fm := by
  induction fm with
  | nil => intro acc _ _ _; simp
  | cons kv rest ih =>
    intro acc hfm hnodup hdisj
    have hkv := hfm kv (List.mem_cons_self kv rest)
    show List.foldl pfmStep (pfmStep acc (fmLine (kv.1, kv.2))) (rest.map fmLine)
      = acc ++ kv :: rest
    rw [pfmStep_fmLine acc kv.1 kv.2 hkv.1 hkv.2.1 hkv.2.2.1 hkv.2.2.2.1
      hkv.2.2.2.2.1 hkv.2.2.2.2.2]
    rw [cfmSet_fresh acc kv.1 kv.2 (hdisj kv (List.mem_cons_self kv rest))]
    have hnd := hnodup
    rw [List.map_cons] at hnd
    obtain ⟨hnotin, hnd'⟩ := List.nodup_cons.mp hnd
    rw [ih (acc ++ [(kv.1, kv.2)])
      (fun x hx => hfm x (List.mem_cons_of_mem kv hx))
      hnd'
      ?_]
    · simp
    · intro x hx hmem
      simp only [List.map_append, List.mem_append] at hmem
      rcases hmem with hm | hm
      · exact hdisj x (List.mem_cons_of_mem kv hx) hm
      · have hx1 : x.1 = kv.1 := by simpa using hm
        exact hnotin (hx1 ▸ List.mem_map.mpr ⟨x, hx, rfl⟩)

theorem splitLines_joinWith (lines : List (List Char)) (hne : lines ≠ [])
    (h : ∀ l ∈ lines, '\n' ∉ l) :
    splitLines (joinWith '\n' lines) = lines := by
  induction lines with
  | nil => exact absurd rfl hne
  | cons l rest ih =>
    rcases rest with _ | ⟨l', rest'⟩
    · show splitLines l = [l]
      unfold splitLines
      rw [splitOnChar_no_sep '\n' l (h l (List.mem_cons_self l []))]
    · show splitLines (l ++ '\n' :: joinWith '\n' (l' :: rest')) = l :: l' :: rest'
      have hrec := ih (List.cons_ne_nil l' rest')
        (fun m hm => h m (List.mem_cons_of_mem l hm))
      unfold splitLines at hrec ⊢
      rw [splitOnChar_append '\n' l _ (h l (List.mem_cons_self l _))]
      dsimp only
      exact congrArg (List.cons l) hrec

/-- Counterexample to C10 as stated: a frontmatter key containing the
`':'` delimiter (here `"a:b"`) does not survive the write/parse round
trip — the parser splits the line at the first `':'`, yielding key
`"a"` and value `"b: v"`. -/
theorem note_roundtrip_counterexample :
    parseNoteMd (writeNoteMd [("a:b".data, "v".data)] "x".data) ≠
      ([("a:b".data, "v".data)], trimL "x".data) ∧
    parseNoteMd (writeNoteMd [("a:b".data, "v".data)] "x".data) =
      ([("a".data, "b: v".data)], "x".data) := by
  refine ⟨by decide, by decide⟩

/-- C10 (amended): for every frontmatter map whose keys are nonempty
single-line strings containing no `':'` and no surrounding whitespace,
and whose values are single-line strings without surrounding whitespace
(values may contain `':'`, e.g. URLs), parsing the file produced by
`writeNoteMd` returns an equal frontmatter map and the
whitespace-trimmed body; and a file whose content does not match the
delimited header pattern parses to an empty frontmatter map with the
whole content as body. -/
theorem note_roundtrip_amended :
    (∀ (fm : List (List Char × List Char)) (body : List Char),
      (fm.map Prod.fst).Nodup →
      (∀ kv ∈ fm, kv.1 ≠ [] ∧ ':' ∉ kv.1 ∧ '\n' ∉ kv.1 ∧
        kv.1.dropWhile isWsChar = kv.1 ∧ dropTrailWs kv.1 = kv.1 ∧
        '\n' ∉ kv.2 ∧ kv.2.dropWhile isWsChar = kv.2 ∧ dropTrailWs kv.2 = kv.2) →
      parseNoteMd (writeNoteMd fm body) = (fm, trimL body)) ∧
    (∀ content : List Char, headerMatches content = false →
      parseNoteMd content = ([], content)) := by
  constructor
  · intro fm body hnodup hfm
    have hlines : ∀ l ∈ fm.map fmLine, '\n' ∉ l ∧ l ≠ ['-', '-', '-'] := by
      intro l hl
      rcases List.mem_map.mp hl with ⟨kv, hkv, rfl⟩
      have h := hfm kv hkv
      constructor
      · intro hmem
        rcases List.mem_append.mp hmem with hm | hm
        · exact h.2.2.1 hm
        · rcases List.mem_cons.mp hm with heq | hm'
          · exact absurd heq (by decide)
          · rcases List.mem_cons.mp hm' with heq | hm''
            · exact absurd heq (by decide)
            · exact h.2.2.2.2.2.1 hm''
      · intro heq
        have hc : ':' ∈ fmLine kv :=
          List.mem_append.mpr (Or.inr (List.mem_cons_self ':' _))
        rw [heq] at hc
        exact absurd hc (by decide)
    have hlead : leadsWith ['-', '-', '-', '\n'] (writeNoteMd fm body) = true := by
      unfold writeNoteMd
      simp [leadsWith]
    have hdrop : (writeNoteMd fm body).drop 4 =
        joinWith '\n' (fm.map fmLine)
          ++ '\n' :: '-' :: '-' :: '-' :: '\n' :: ('\n' :: (body ++ ['\n'])) := rfl
    have hfd : findDelim ((writeNoteMd fm body).drop 4) =
        some (joinWith '\n' (fm.map fmLine), '\n' :: (body ++ ['\n'])) := by
      rw [hdrop]
      exact findDelim_yaml (fm.map fmLine) ('\n' :: (body ++ ['\n'])) hlines
    unfold parseNoteMd
    rw [if_pos hlead, hfd]
    have hbody : trimL ('\n' :: (body ++ ['\n'])) = trimL body := by
      rw [trimL_cons_ws '\n' _ (by decide), trimL_append_nl]
    show (parseFMLines (splitLines (joinWith '\n' (List.map fmLine fm))),
        trimL ('\n' :: (body ++ ['\n']))) = (fm, trimL body)
    rw [hbody]
    rcases hfmcase : fm with _ | ⟨kv0, fmrest⟩
    · rfl
    · rw [← hfmcase]
      have hne : fm.map fmLine ≠ [] := by
        rw [hfmcase]; exact List.cons_ne_nil _ _
      have hsl : splitLines (joinWith '\n' (fm.map fmLine)) = fm.map fmLine :=
        splitLines_joinWith (fm.map fmLine) hne (fun l hl => (hlines l hl).1)
      show (parseFMLines (splitLines (joinWith '\n' (fm.map fmLine))), trimL body)
        = (fm, trimL body)
      rw [hsl]
      unfold parseFMLines
      rw [parseFM_build fm []
        (fun kv hkv => by
          have h := hfm kv hkv
          exact ⟨h.1, h.2.1, h.2.2.2.1, h.2.2.2.2.1, h.2.2.2.2.2.2.1, h.2.2.2.2.2.2.2⟩)
        hnodup
        (fun kv _ hmem => absurd hmem (by simp))]
      rfl
  · intro content h
    unfold headerMatches at h
    unfold parseNoteMd
    by_cases h1 : leadsWith ['-', '-', '-', '\n'] content = true
    · rw [if_pos h1]
      rw [h1] at h
      rcases hfd : findDelim (content.drop 4) with _ | p
      · rfl
      · rw [hfd] at h
        exact absurd h (by simp)
    · rw [if_neg h1]

/-- Witness for the amended C10. -/
theorem note_roundtrip_amended_witness :
    parseNoteMd (writeNoteMd
        [("id".data, "abc-123".data), ("notionUrl".data, "https://notion.so/abc".data)]
        "hello world".data)
      = ([("id".data, "abc-123".data), ("notionUrl".data, "https://notion.so/abc".data)],
         trimL "hello world".data) ∧
    parseNoteMd "no header here".data = ([], "no header here".data) :=
  ⟨note_roundtrip_amended.1
      [("id".data, "abc-123".data), ("notionUrl".data, "https://notion.so/abc".data)]
      "hello world".data (by decide) (by decide),
   note_roundtrip_amended.2 "no header here".data (by decide)⟩

/-! ## C8: fixed inline-annotation nesting precedence -/

/-- C8: for every inline span, the transcoder's output is the plain
text wrapped in the fixed nesting order bold, then italic, then
inline-code, then strikethrough, then link — the spec-side wrappers
composed in exactly that precedence — independent of which combination
of annotations is set; `richTextToMd` is the deterministic span-wise
map of this. -/
theorem inline_nesting_precedence (t : RichTextSpan) (ts : List RichTextSpan) :
    spanToMd t = specWrapLink t.href (specWrapStrike t.strikethrough
      (specWrapCode t.code (specWrapItalic t.italic
        (specWrapBold t.bold t.plainText)))) ∧
    richTextToMd ts = String.join (ts.map spanToMd) := by
  exact ⟨rfl, rfl⟩

end BrainCli
